import Mathlib

/-! The known-cells cache of go/cmd/vtctld/topo_data.go.

A shallow embedding of `knownCellsCache` (its `get` and `flush` methods) and of
the `KnownCells` object it serves, followed by the properties of the cache.

Modelling conventions.

* A `time.Time` is the instant it denotes, an `Int` count of nanoseconds since
  the zero `time.Time{}`; a `time.Duration` is an `Int` count of nanoseconds,
  and `Time.Sub` saturates at the two ends of the int64 range as in Go.
* A Go `string` is `GoString`, the list of its bytes, valid UTF-8 or not. A
  Lean string literal where a `GoString` is due stands for the bytes of its
  UTF-8 encoding.
* A `[]string` is `Option (List GoString)`: `none` is the nil slice, `some []`
  the empty slice that is not nil. `reflect.DeepEqual` tells the two apart.
* A `[]byte` is `Option String`: `none` is nil, `some t` the bytes of the
  text `t`. The only bytes the cache holds come from `encoding/json`, which
  writes valid UTF-8 whatever the strings it is given.
* An `error` is `Option GoError`, `none` being the nil error.
* The mutex is not modelled: every method body is one atomic transition.
* The upstream `topo.Server` is the environment. A call of `get` is given the
  reply `GetKnownCells` has for it, and reports how often it asked.
* `Version` is a Go `int`, 64 bits wide as on the platforms vtctld is built
  for: an `Int` on which `++` wraps around, `wrapInt (v + 1)`.
-/

namespace TopoData

/-! ## Time -/

/-- One `time.Second`, in nanoseconds. -/
def Second : Int := 1000000000

/-- One `time.Minute`, in nanoseconds. -/
def Minute : Int := 60 * Second

/-- The smallest `time.Duration`, `-1 << 63`. -/
def minDuration : Int := -9223372036854775808

/-- The largest `time.Duration`, `1<<63 - 1`. -/
def maxDuration : Int := 9223372036854775807

/-- The zero instant `time.Time{}`. -/
def zeroTime : Int := 0

/-- Go `t.Sub(u)`: the duration `t - u`, or the largest (smallest) duration
when `t - u` is above (below) what a `time.Duration` holds. -/
def timeSub (t u : Int) : Int :=
  if t - u < minDuration then minDuration
  else if maxDuration < t - u then maxDuration
  else t - u

/-! ## Machine integers -/

/-- The smallest Go `int`, `-1 << 63`. -/
def minInt : Int := -9223372036854775808

/-- The largest Go `int`, `1<<63 - 1`. -/
def maxInt : Int := 9223372036854775807

/-- The Go `int` an integer wraps around to: its residue modulo `2^64` in the
range from `minInt` to `maxInt`. -/
def wrapInt (i : Int) : Int :=
  (i + 9223372036854775808) % 18446744073709551616 - 9223372036854775808

/-! ## Data -/

/-- A Go `error` value that is not nil, by its message. -/
abbrev GoError := String

/-- A Go `string`: its bytes. Nothing makes them valid UTF-8. -/
abbrev GoString := List UInt8

/-- Go `utf8.AppendRune` on a valid rune: the one to four bytes of its UTF-8
encoding. -/
def utf8Bytes (c : Char) : List UInt8 :=
  let n := c.toNat
  if n < 128 then [UInt8.ofNat n]
  else if n < 2048 then [UInt8.ofNat (192 + n / 64), UInt8.ofNat (128 + n % 64)]
  else if n < 65536 then
    [UInt8.ofNat (224 + n / 4096), UInt8.ofNat (128 + n / 64 % 64), UInt8.ofNat (128 + n % 64)]
  else
    [UInt8.ofNat (240 + n / 262144), UInt8.ofNat (128 + n / 4096 % 64),
      UInt8.ofNat (128 + n / 64 % 64), UInt8.ofNat (128 + n % 64)]

/-- The Go `string` a text denotes: the bytes of its UTF-8 encoding. -/
def GoString.ofString (s : String) : GoString := (s.data.map utf8Bytes).flatten

instance : Coe String GoString := ⟨GoString.ofString⟩

/-- Go `utf8.DecodeRune` at the head of a string that is not empty: the rune
and the width of its encoding, or `none` where Go returns `(RuneError, 1)`, the
encoding being invalid or cut short. The first byte gives the width and the
range the second byte has to be in (which rules out overlong forms, surrogates
and runes above U+10FFFF); further bytes are between 0x80 and 0xBF. -/
def decodeRune : List UInt8 → Option (Nat × Nat)
  | [] => none
  | b0 :: rest =>
    if b0.toNat < 128 then some (b0.toNat, 1)
    else if b0.toNat < 194 then none
    else if b0.toNat < 224 then
      match rest with
      | b1 :: _ =>
        if 128 ≤ b1.toNat ∧ b1.toNat ≤ 191 then
          some (b0.toNat % 32 * 64 + b1.toNat % 64, 2)
        else none
      | [] => none
    else if b0.toNat < 240 then
      match rest with
      | b1 :: b2 :: _ =>
        if (if b0.toNat = 224 then 160 else 128) ≤ b1.toNat ∧
            b1.toNat ≤ (if b0.toNat = 237 then 159 else 191) ∧
            128 ≤ b2.toNat ∧ b2.toNat ≤ 191 then
          some ((b0.toNat % 16 * 64 + b1.toNat % 64) * 64 + b2.toNat % 64, 3)
        else none
      | _ => none
    else if b0.toNat < 245 then
      match rest with
      | b1 :: b2 :: b3 :: _ =>
        if (if b0.toNat = 240 then 144 else 128) ≤ b1.toNat ∧
            b1.toNat ≤ (if b0.toNat = 244 then 143 else 191) ∧
            128 ≤ b2.toNat ∧ b2.toNat ≤ 191 ∧ 128 ≤ b3.toNat ∧ b3.toNat ≤ 191 then
          some (((b0.toNat % 8 * 64 + b1.toNat % 64) * 64 + b2.toNat % 64) * 64
            + b3.toNat % 64, 4)
        else none
      | _ => none
    else none

/-- The runes of a Go string as a `for range` loop, or the loop of
`encoding/json` over a string, meets them: `some c` for a validly encoded rune,
`none` for a byte that starts no valid encoding, after which the loop goes on
one byte further. The first argument bounds the number of runes. -/
def runesAux : Nat → List UInt8 → List (Option Char)
  | 0, _ => []
  | _ + 1, [] => []
  | fuel + 1, b :: rest =>
    match decodeRune (b :: rest) with
    | some (r, size) => some (Char.ofNat r) :: runesAux fuel ((b :: rest).drop size)
    | none => none :: runesAux fuel rest

/-- The runes of a Go string. -/
def runes (s : GoString) : List (Option Char) := runesAux s.length s

/-- Go `utf8.ValidString`: every byte belongs to a validly encoded rune. -/
def validUTF8 (s : GoString) : Bool := (runes s).all Option.isSome

/-- Go `string([]rune(s))`: every byte that starts no valid encoding replaced
by the three bytes of U+FFFD, one replacement a byte. It is the string
`encoding/json` reads back from what it wrote for `s`. -/
def toValidUTF8 (s : GoString) : GoString :=
  ((runes s).map (fun r => utf8Bytes (r.getD (Char.ofNat 65533)))).flatten

/-- KnownCells is the toplevel struct converted to json and returned to
clients. -/
structure KnownCells where
  /-- Version is the version number for that object, a Go `int`: from `minInt`
  to `maxInt` in every state the program can be in. -/
  Version : Int
  /-- Cells is the list of known cells for this topology. -/
  Cells : Option (List GoString)
  deriving DecidableEq, Repr

/-- The cache, without its mutex and its handle on the topology server. -/
structure knownCellsCache where
  timestamp : Int
  knownCells : KnownCells
  result : Option String
  deriving DecidableEq, Repr

/-- What `ts.GetKnownCells()` returns: a slice and an error. -/
structure CellsReply where
  cells : Option (List GoString)
  err : Option GoError
  deriving DecidableEq, Repr

/-- Go `reflect.DeepEqual` on two `[]string`: both nil, or both not nil with
the same elements in the same order. -/
def deepEqual (a b : Option (List GoString)) : Bool :=
  match a, b with
  | none, none => true
  | some xs, some ys => decide (xs = ys)
  | _, _ => false

/-! ## encoding/json on a `KnownCells` -/

/-- The sixteen digits `encoding/json` writes `\u` escapes with. -/
def hexDigits : List Char :=
  ['0', '1', '2', '3', '4', '5', '6', '7', '8', '9', 'a', 'b', 'c', 'd', 'e', 'f']

/-- One hexadecimal digit. -/
def hexDigit (n : Nat) : Char := hexDigits.getD n '0'

/-- The escape `\u00XY` of a code point below 256. -/
def escapeByte (n : Nat) : List Char :=
  [Char.ofNat 92, 'u', '0', '0', hexDigit (n / 16), hexDigit (n % 16)]

/-- How `encoding/json` writes one character of a string, HTML escaping on (as
`Marshal` has it): the quote and the backslash get a backslash, the control
characters and `<`, `>`, `&` become escapes, and so do U+2028 and U+2029.
The short forms for backspace, form feed and tab are those of recent Go
releases; older ones write the six character escape for them. -/
def encodeChar (c : Char) : List Char :=
  let n := c.toNat
  if n = 34 ∨ n = 92 then [Char.ofNat 92, c]
  else if n = 8 then [Char.ofNat 92, 'b']
  else if n = 12 then [Char.ofNat 92, 'f']
  else if n = 10 then [Char.ofNat 92, 'n']
  else if n = 13 then [Char.ofNat 92, 'r']
  else if n = 9 then [Char.ofNat 92, 't']
  else if n < 32 ∨ n = 60 ∨ n = 62 ∨ n = 38 then escapeByte n
  else if n = 8232 then [Char.ofNat 92, 'u', '2', '0', '2', '8']
  else if n = 8233 then [Char.ofNat 92, 'u', '2', '0', '2', '9']
  else [c]

/-- How `encoding/json` writes one step of its loop over a string: a valid
rune as `encodeChar` has it, a byte that starts no valid encoding as the
escape of U+FFFD. -/
def encodeRune : Option Char → List Char
  | some c => encodeChar c
  | none => [Char.ofNat 92, 'u', 'f', 'f', 'f', 'd']

/-- A Go string as a JSON string literal. -/
def encodeString (s : GoString) : List Char :=
  [Char.ofNat 34] ++ ((runes s).map encodeRune).flatten ++ [Char.ofNat 34]

/-- The elements of an array that is not empty, one a line at depth two,
a comma after each but the last. -/
def encodeElems : List GoString → List Char
  | [] => []
  | [s] => [Char.ofNat 10, ' ', ' ', ' ', ' '] ++ encodeString s
  | s :: t => [Char.ofNat 10, ' ', ' ', ' ', ' '] ++ encodeString s ++ [','] ++ encodeElems t

/-- A `[]string` as indented JSON at depth one: `null` for nil, `[]` for an
empty slice, else the elements between brackets. -/
def encodeCells : Option (List GoString) → List Char
  | none => ['n', 'u', 'l', 'l']
  | some [] => ['[', ']']
  | some (s :: t) => ['['] ++ encodeElems (s :: t) ++ [Char.ofNat 10, ' ', ' ', ']']

/-- A Go `int` in decimal. -/
def encodeInt (i : Int) : List Char := (toString i).data

/-- The text of `json.MarshalIndent(&k, "", "  ")`: an object with the fields
`Version` and `Cells` in the order of the struct, no line start text and two
spaces a level. -/
def encodeKnownCells (k : KnownCells) : String :=
  String.mk ([Char.ofNat 123, Char.ofNat 10, ' ', ' '] ++ encodeString "Version" ++ [':', ' ']
    ++ encodeInt k.Version ++ [',', Char.ofNat 10, ' ', ' '] ++ encodeString "Cells" ++ [':', ' ']
    ++ encodeCells k.Cells ++ [Char.ofNat 10, Char.ofNat 125])

/-- Go `json.MarshalIndent(&k, "", "  ")` with its two results, the bytes and
the error. An `int` and a `[]string` always encode, so the error is nil. -/
def marshalIndent (k : KnownCells) : Option String × Option GoError :=
  (some (encodeKnownCells k), none)

/-! ## The cache -/

/-- What one call of `get` gives: the two values it returns, the cache it
leaves, and how many times it called `GetKnownCells`. -/
structure GetOutcome where
  bytes : Option String
  err : Option GoError
  kcc : knownCellsCache
  upstreamCalls : Nat
  deriving DecidableEq, Repr

/-- The cache `newKnownCellsCache` builds: every field at its zero value. -/
def newKnownCellsCache : knownCellsCache :=
  { timestamp := zeroTime, knownCells := { Version := 0, Cells := none }, result := none }

/-- The method `get`, at clock reading `now`, with `ts` the reply of
`kcc.ts.GetKnownCells()` should it be asked. -/
def knownCellsCache.get (kcc : knownCellsCache) (now : Int) (ts : CellsReply) : GetOutcome :=
  if timeSub now kcc.timestamp < 5 * Minute then
    { bytes := kcc.result, err := none, kcc := kcc, upstreamCalls := 0 }
  else
    match ts.err with
    | some err => { bytes := none, err := some err, kcc := kcc, upstreamCalls := 1 }
    | none =>
      let knownCells : KnownCells :=
        if !deepEqual ts.cells kcc.knownCells.Cells then
          { Version := wrapInt (kcc.knownCells.Version + 1), Cells := ts.cells }
        else kcc.knownCells
      match marshalIndent knownCells with
      | (result, some err) =>
        { bytes := none, err := some err,
          kcc := { timestamp := kcc.timestamp, knownCells := knownCells, result := result },
          upstreamCalls := 1 }
      | (result, none) =>
        { bytes := result, err := none,
          kcc := { timestamp := now, knownCells := knownCells, result := result },
          upstreamCalls := 1 }

/-- The method `flush`: the timestamp and the cells go back to their zero
values. -/
def knownCellsCache.flush (kcc : knownCellsCache) : knownCellsCache :=
  { timestamp := zeroTime,
    knownCells := { Version := kcc.knownCells.Version, Cells := none },
    result := kcc.result }

/-! ## Sequences of calls -/

/-- One call on the cache: `get` at a clock reading, with the reply upstream
has for it, or `flush`. -/
inductive Op where
  | get (now : Int) (ts : CellsReply)
  | flush
  deriving DecidableEq, Repr

/-- The cache after one call. -/
def step (kcc : knownCellsCache) : Op → knownCellsCache
  | Op.get now ts => (kcc.get now ts).kcc
  | Op.flush => kcc.flush

/-- The cache after a sequence of calls, first call first. -/
def run (kcc : knownCellsCache) : List Op → knownCellsCache
  | [] => kcc
  | op :: ops => run (step kcc op) ops

/-- What the `get` calls of a sequence of calls gave, in order. -/
def trace (kcc : knownCellsCache) : List Op → List GetOutcome
  | [] => []
  | Op.get now ts :: ops => kcc.get now ts :: trace (kcc.get now ts).kcc ops
  | Op.flush :: ops => trace kcc.flush ops

/-- The clock reading of a `get` is at least five minutes past the zero
timestamp; a `flush` reads no clock. -/
def Op.clockOk : Op → Bool
  | Op.get now _ => decide (zeroTime + 5 * Minute ≤ now)
  | Op.flush => true

/-- A call of `get` that asked upstream and returned without an error: a
successful recomputation. -/
def GetOutcome.recomputed (o : GetOutcome) : Bool :=
  decide (o.upstreamCalls = 1) && o.err.isNone

/-- The snapshot a successful recomputation stores, from the cached one and
the slice upstream returned (lines 59 to 62 of the source). -/
def refresh (k : KnownCells) (cells : Option (List GoString)) : KnownCells :=
  if !deepEqual cells k.Cells then { Version := wrapInt (k.Version + 1), Cells := cells } else k

/-- The calls of a sequence are all `get`s that are no successful
recomputation: each is a hit or fails upstream. -/
def quiet (kcc : knownCellsCache) : List Op → Bool
  | [] => true
  | Op.get now ts :: ops =>
    !(kcc.get now ts).recomputed && quiet (kcc.get now ts).kcc ops
  | Op.flush :: _ => false

/-- The items of a slice as a plain sequence: a nil slice has none. -/
def items (cells : Option (List GoString)) : List GoString := cells.getD []

/-- The stored payload is the serialization of the stored snapshot, unless the
timestamp is the zero timestamp. -/
def InSync (kcc : knownCellsCache) : Prop :=
  kcc.timestamp = zeroTime ∨ kcc.result = some (encodeKnownCells kcc.knownCells)

/-- A call is a `get` whose clock reading is less than five minutes after the
given refresh timestamp; a `flush` is not. -/
def Op.fresh (timestamp : Int) : Op → Bool
  | Op.get now _ => decide (now - timestamp < 5 * Minute)
  | Op.flush => false

/-- How many times the calls of a trace called `GetKnownCells` in total. -/
def upstreamTotal : List GetOutcome → Nat
  | [] => 0
  | o :: os => o.upstreamCalls + upstreamTotal os

/-! ## Reading a payload back -/

/-- The literal `lit` at the head of the text, and what follows it. -/
def expect : List Char → List Char → Option (List Char)
  | [], l => some l
  | _ :: _, [] => none
  | c :: cs, d :: ds => if c = d then expect cs ds else none

/-- The value of a decimal digit. -/
def digitValue (c : Char) : Option Nat :=
  if 48 ≤ c.toNat ∧ c.toNat ≤ 57 then some (c.toNat - 48) else none

/-- The digits at the head of the text, read in base ten onto `acc`, and what
follows them. -/
def decodeDigits (acc : Nat) : List Char → Nat × List Char
  | [] => (acc, [])
  | c :: rest =>
    match digitValue c with
    | some d => decodeDigits (acc * 10 + d) rest
    | none => (acc, c :: rest)

/-- A JSON integer at the head of the text: an optional minus sign and at
least one digit. -/
def decodeInt : List Char → Option (Int × List Char)
  | [] => none
  | c :: rest =>
    if c.toNat = 45 then
      match rest with
      | [] => none
      | d :: _ =>
        if (digitValue d).isSome then
          some (-((decodeDigits 0 rest).1 : Int), (decodeDigits 0 rest).2)
        else none
    else if (digitValue c).isSome then
      some (((decodeDigits 0 (c :: rest)).1 : Int), (decodeDigits 0 (c :: rest)).2)
    else none

/-- The value of a hexadecimal digit, of either case. -/
def hexValue (c : Char) : Option Nat :=
  if 48 ≤ c.toNat ∧ c.toNat ≤ 57 then some (c.toNat - 48)
  else if 97 ≤ c.toNat ∧ c.toNat ≤ 102 then some (c.toNat - 87)
  else if 65 ≤ c.toNat ∧ c.toNat ≤ 70 then some (c.toNat - 55)
  else none

/-- The code point four hexadecimal digits write. -/
def hexValue4 (a b c d : Char) : Option Nat :=
  match hexValue a, hexValue b, hexValue c, hexValue d with
  | some wa, some wb, some wc, some wd => some (((wa * 16 + wb) * 16 + wc) * 16 + wd)
  | _, _, _, _ => none

/-- The character a JSON escape of two characters stands for, by the second
one: the quote, the backslash, the slash, and `b`, `f`, `n`, `r`, `t`. -/
def unescape (x : Char) : Option Char :=
  if x.toNat = 34 then some (Char.ofNat 34)
  else if x.toNat = 92 then some (Char.ofNat 92)
  else if x.toNat = 47 then some (Char.ofNat 47)
  else if x.toNat = 98 then some (Char.ofNat 8)
  else if x.toNat = 102 then some (Char.ofNat 12)
  else if x.toNat = 110 then some (Char.ofNat 10)
  else if x.toNat = 114 then some (Char.ofNat 13)
  else if x.toNat = 116 then some (Char.ofNat 9)
  else none

/-- The rest of a JSON string literal, its opening quote already read: the
characters up to the closing quote, escapes undone, and what follows the
closing quote. A control character that is not escaped is refused, and so is
the escape of half a surrogate pair. -/
def decodeChars : List Char → Option (List Char × List Char)
  | [] => none
  | c :: rest =>
    if c.toNat = 34 then some ([], rest)
    else if c.toNat = 92 then
      match rest with
      | [] => none
      | x :: rest1 =>
        if x.toNat = 117 then
          match rest1 with
          | a :: b :: c2 :: d :: rest2 =>
            match hexValue4 a b c2 d with
            | some n =>
              if n.isValidChar then
                (decodeChars rest2).map (fun p => (Char.ofNat n :: p.1, p.2))
              else none
            | none => none
          | _ => none
        else
          match unescape x with
          | some y => (decodeChars rest1).map (fun p => (y :: p.1, p.2))
          | none => none
    else if c.toNat < 32 then none
    else (decodeChars rest).map (fun p => (c :: p.1, p.2))

/-- A JSON string literal at the head of the text, as the Go string it
denotes: the UTF-8 encoding of its characters. -/
def decodeString (l : List Char) : Option (GoString × List Char) :=
  match l with
  | [] => none
  | q :: rest =>
    if q.toNat = 34 then
      (decodeChars rest).map (fun p => ((p.1.map utf8Bytes).flatten, p.2))
    else none

/-- The elements of an array that is not empty, as `MarshalIndent` lays them
out: each on a line of its own behind four spaces, a comma between two, and
after the last a line with two spaces and the closing bracket. The first
argument bounds the number of elements read. -/
def decodeElems : Nat → List Char → Option (List GoString × List Char)
  | 0, _ => none
  | fuel + 1, l =>
    match expect [Char.ofNat 10, ' ', ' ', ' ', ' '] l with
    | none => none
    | some l1 =>
      match decodeString l1 with
      | none => none
      | some (s, l2) =>
        match l2 with
        | [] => none
        | c :: l3 =>
          if c = ',' then (decodeElems fuel l3).map (fun p => (s :: p.1, p.2))
          else
            match expect [Char.ofNat 10, ' ', ' ', ']'] l2 with
            | some l4 => some ([s], l4)
            | none => none

/-- The value of the field `Cells`: `null`, `[]`, or an array laid out as
`decodeElems` reads it. -/
def decodeCells (l : List Char) : Option (Option (List GoString) × List Char) :=
  match expect ['n', 'u', 'l', 'l'] l with
  | some rest => some (none, rest)
  | none =>
    match expect ['[', ']'] l with
    | some rest => some (some [], rest)
    | none =>
      match expect ['['] l with
      | some rest => (decodeElems rest.length rest).map (fun p => (some p.1, p.2))
      | none => none

/-- A payload read back: the text must be an object of exactly the two fields
`Version`, an integer, and `Cells`, in that order, each on a line of its own
behind two spaces, nothing before the opening brace and nothing after the
closing one. -/
def decodeKnownCells (text : String) : Option KnownCells :=
  match expect ([Char.ofNat 123, Char.ofNat 10, ' ', ' ', Char.ofNat 34, 'V', 'e', 'r', 's', 'i',
      'o', 'n', Char.ofNat 34, ':', ' ']) text.data with
  | none => none
  | some l1 =>
    match decodeInt l1 with
    | none => none
    | some (v, l2) =>
      match expect ([',', Char.ofNat 10, ' ', ' ', Char.ofNat 34, 'C', 'e', 'l', 'l', 's',
          Char.ofNat 34, ':', ' ']) l2 with
      | none => none
      | some l3 =>
        match decodeCells l3 with
        | none => none
        | some (cells, l4) =>
          match l4 with
          | [a, b] =>
            if a.toNat = 10 ∧ b.toNat = 125 then some { Version := v, Cells := cells } else none
          | _ => none

/-- Every cell name of the slice is valid UTF-8; a nil slice has none. -/
def cellsValid : Option (List GoString) → Bool
  | none => true
  | some ss => ss.all validUTF8

/-- The payload reads back as an object whose `Cells` is an array, not
`null`. -/
def cellsIsArray (payload : Option String) : Bool :=
  match payload.bind decodeKnownCells with
  | some k => k.Cells.isSome
  | none => false

/-! ## Basic facts -/

theorem deepEqual_iff (a b : Option (List GoString)) : deepEqual a b = true ↔ a = b := by
  cases a <;> cases b <;> simp [deepEqual]

theorem timeSub_lt_iff (t u : Int) : timeSub t u < 5 * Minute ↔ t - u < 5 * Minute := by
  unfold timeSub minDuration maxDuration Minute Second
  split_ifs <;> constructor <;> intro h <;> omega

theorem refresh_cells (k : KnownCells) (cells : Option (List GoString)) :
    (refresh k cells).Cells = cells := by
  unfold refresh
  cases hd : deepEqual cells k.Cells with
  | false => simp
  | true => simpa using ((deepEqual_iff _ _).1 hd).symm

theorem refresh_version (k : KnownCells) (cells : Option (List GoString)) :
    (refresh k cells).Version =
      if cells = k.Cells then k.Version else wrapInt (k.Version + 1) := by
  unfold refresh
  by_cases h : cells = k.Cells
  · simp [h, (deepEqual_iff _ _).2 rfl]
  · have : deepEqual cells k.Cells = false := by
      cases hd : deepEqual cells k.Cells
      · rfl
      · exact absurd ((deepEqual_iff _ _).1 hd) h
    simp [h, this]

theorem get_of_hit (kcc : knownCellsCache) (now : Int) (ts : CellsReply)
    (h : now - kcc.timestamp < 5 * Minute) :
    kcc.get now ts = { bytes := kcc.result, err := none, kcc := kcc, upstreamCalls := 0 } := by
  unfold knownCellsCache.get
  rw [if_pos ((timeSub_lt_iff _ _).2 h)]

theorem get_of_fail (kcc : knownCellsCache) (now : Int) (ts : CellsReply) (e : GoError)
    (h : ¬ now - kcc.timestamp < 5 * Minute) (he : ts.err = some e) :
    kcc.get now ts = { bytes := none, err := some e, kcc := kcc, upstreamCalls := 1 } := by
  unfold knownCellsCache.get
  rw [if_neg (fun hh => h ((timeSub_lt_iff _ _).1 hh))]
  simp [he]

theorem get_of_fetch (kcc : knownCellsCache) (now : Int) (ts : CellsReply)
    (h : ¬ now - kcc.timestamp < 5 * Minute) (he : ts.err = none) :
    kcc.get now ts =
      { bytes := some (encodeKnownCells (refresh kcc.knownCells ts.cells)), err := none,
        kcc := { timestamp := now, knownCells := refresh kcc.knownCells ts.cells,
                 result := some (encodeKnownCells (refresh kcc.knownCells ts.cells)) },
        upstreamCalls := 1 } := by
  unfold knownCellsCache.get
  rw [if_neg (fun hh => h ((timeSub_lt_iff _ _).1 hh))]
  simp [he, marshalIndent, refresh]

theorem get_upstreamCalls (kcc : knownCellsCache) (now : Int) (ts : CellsReply) :
    (kcc.get now ts).upstreamCalls = if now - kcc.timestamp < 5 * Minute then 0 else 1 := by
  by_cases h : now - kcc.timestamp < 5 * Minute
  · rw [get_of_hit kcc now ts h, if_pos h]
  · rw [if_neg h]
    cases he : ts.err with
    | none => rw [get_of_fetch kcc now ts h he]
    | some e => rw [get_of_fail kcc now ts e h he]

theorem miss_of_upstreamCalls (kcc : knownCellsCache) (now : Int) (ts : CellsReply)
    (h : (kcc.get now ts).upstreamCalls = 1) : ¬ now - kcc.timestamp < 5 * Minute := by
  intro hh
  rw [get_upstreamCalls, if_pos hh] at h
  exact absurd h (by decide)

theorem recomputed_iff (kcc : knownCellsCache) (now : Int) (ts : CellsReply) :
    (kcc.get now ts).recomputed = true ↔ (¬ now - kcc.timestamp < 5 * Minute ∧ ts.err = none) := by
  by_cases h : now - kcc.timestamp < 5 * Minute
  · simp [get_of_hit kcc now ts h, GetOutcome.recomputed, h]
  · cases he : ts.err with
    | none => simp [get_of_fetch kcc now ts h he, GetOutcome.recomputed, h]
    | some e => simp [get_of_fail kcc now ts e h he, GetOutcome.recomputed]

theorem get_kcc_of_not_recomputed (kcc : knownCellsCache) (now : Int) (ts : CellsReply)
    (h : (kcc.get now ts).recomputed = false) : (kcc.get now ts).kcc = kcc := by
  by_cases hh : now - kcc.timestamp < 5 * Minute
  · rw [get_of_hit kcc now ts hh]
  · cases he : ts.err with
    | none =>
      have := (recomputed_iff kcc now ts).2 ⟨hh, he⟩
      rw [h] at this
      exact absurd this (by decide)
    | some e => rw [get_of_fail kcc now ts e hh he]

theorem run_of_quiet (ops : List Op) :
    ∀ kcc : knownCellsCache, quiet kcc ops = true → run kcc ops = kcc := by
  induction ops with
  | nil => intro kcc _; rfl
  | cons op ops ih =>
    intro kcc h
    cases op with
    | flush => simp [quiet] at h
    | get now ts =>
      simp only [quiet, Bool.and_eq_true, Bool.not_eq_true'] at h
      have hk := get_kcc_of_not_recomputed kcc now ts h.1
      have h2 := h.2
      rw [hk] at h2
      simp only [run, step]
      rw [hk]
      exact ih kcc h2

theorem inSync_new : InSync newKnownCellsCache := Or.inl rfl

theorem inSync_flush (kcc : knownCellsCache) : InSync kcc.flush := Or.inl rfl

theorem inSync_get (kcc : knownCellsCache) (now : Int) (ts : CellsReply) (h : InSync kcc) :
    InSync (kcc.get now ts).kcc := by
  by_cases hh : now - kcc.timestamp < 5 * Minute
  · rw [get_of_hit kcc now ts hh]; exact h
  · cases he : ts.err with
    | none => rw [get_of_fetch kcc now ts hh he]; exact Or.inr rfl
    | some e => rw [get_of_fail kcc now ts e hh he]; exact h

theorem get_bytes_of_inSync (kcc : knownCellsCache) (now : Int) (ts : CellsReply)
    (h : InSync kcc) (hnow : zeroTime + 5 * Minute ≤ now) (hok : (kcc.get now ts).err = none) :
    (kcc.get now ts).bytes = some (encodeKnownCells (kcc.get now ts).kcc.knownCells) := by
  by_cases hh : now - kcc.timestamp < 5 * Minute
  · rw [get_of_hit kcc now ts hh]
    rcases h with h | h
    · rw [h] at hh
      unfold zeroTime at hh hnow
      omega
    · exact h
  · cases he : ts.err with
    | none => rw [get_of_fetch kcc now ts hh he]
    | some e =>
      rw [get_of_fail kcc now ts e hh he] at hok
      simp at hok

theorem trace_inSync (ops : List Op) :
    ∀ kcc : knownCellsCache, InSync kcc → (∀ op ∈ ops, op.clockOk = true) →
      ∀ o ∈ trace kcc ops, o.err = none →
        o.bytes = some (encodeKnownCells o.kcc.knownCells) := by
  induction ops with
  | nil => intro kcc _ _ o ho; simp [trace] at ho
  | cons op ops ih =>
    intro kcc hs hclk o ho hok
    have hrest : ∀ op2 ∈ ops, op2.clockOk = true :=
      fun op2 h2 => hclk op2 (List.mem_cons_of_mem _ h2)
    cases op with
    | flush =>
      simp only [trace] at ho
      exact ih kcc.flush (inSync_flush kcc) hrest o ho hok
    | get now ts =>
      simp only [trace, List.mem_cons] at ho
      rcases ho with ho | ho
      · subst ho
        have hnow : zeroTime + 5 * Minute ≤ now := by
          have := hclk (Op.get now ts) (List.mem_cons_self _ _)
          simpa [Op.clockOk] using this
        exact get_bytes_of_inSync kcc now ts hs hnow hok
      · exact ih _ (inSync_get kcc now ts hs) hrest o ho hok

theorem get_bytes_eq_result (kcc : knownCellsCache) (now : Int) (ts : CellsReply)
    (hok : (kcc.get now ts).err = none) :
    (kcc.get now ts).bytes = (kcc.get now ts).kcc.result := by
  by_cases hh : now - kcc.timestamp < 5 * Minute
  · rw [get_of_hit kcc now ts hh]
  · cases he : ts.err with
    | none => rw [get_of_fetch kcc now ts hh he]
    | some e =>
      rw [get_of_fail kcc now ts e hh he] at hok
      simp at hok

theorem trace_of_fresh (later : List Op) (kcc : knownCellsCache)
    (h : ∀ op ∈ later, op.fresh kcc.timestamp = true) :
    (∀ o ∈ trace kcc later,
        o = { bytes := kcc.result, err := none, kcc := kcc, upstreamCalls := 0 }) ∧
      run kcc later = kcc ∧ upstreamTotal (trace kcc later) = 0 ∧
      (trace kcc later).length = later.length := by
  induction later with
  | nil => simp [trace, run, upstreamTotal]
  | cons op ops ih =>
    have hrest : ∀ op2 ∈ ops, op2.fresh kcc.timestamp = true :=
      fun op2 h2 => h op2 (List.mem_cons_of_mem _ h2)
    have hop := h op (List.mem_cons_self _ _)
    cases op with
    | flush => simp [Op.fresh] at hop
    | get now ts =>
      have hlt : now - kcc.timestamp < 5 * Minute := by simpa [Op.fresh] using hop
      have hg := get_of_hit kcc now ts hlt
      obtain ⟨i1, i2, i3, i4⟩ := ih hrest
      simp only [trace, run, step, upstreamTotal, hg, List.mem_cons, List.length_cons]
      refine ⟨?_, i2, by rw [i3], by rw [i4]⟩
      intro o ho
      rcases ho with ho | ho
      · exact ho
      · exact i1 o ho

theorem wrapInt_of_inRange (i : Int) (hlo : minInt ≤ i) (hhi : i ≤ maxInt) : wrapInt i = i := by
  unfold wrapInt
  unfold minInt at hlo
  unfold maxInt at hhi
  omega

theorem wrapInt_succ (v : Int) (hlo : minInt ≤ v) (hhi : v < maxInt) : wrapInt (v + 1) = v + 1 := by
  apply wrapInt_of_inRange
  · unfold minInt at hlo ⊢; omega
  · unfold maxInt at hhi ⊢; omega

theorem version_step (kcc : knownCellsCache) (op : Op) :
    (step kcc op).knownCells.Version = kcc.knownCells.Version ∨
      (step kcc op).knownCells.Version = wrapInt (kcc.knownCells.Version + 1) := by
  cases op with
  | flush => exact Or.inl rfl
  | get now ts =>
    simp only [step]
    by_cases hh : now - kcc.timestamp < 5 * Minute
    · rw [get_of_hit kcc now ts hh]; exact Or.inl rfl
    · cases he : ts.err with
      | none =>
        rw [get_of_fetch kcc now ts hh he]
        simp only [refresh_version]
        by_cases hc : ts.cells = kcc.knownCells.Cells
        · rw [if_pos hc]; exact Or.inl rfl
        · rw [if_neg hc]; exact Or.inr rfl
      | some e => rw [get_of_fail kcc now ts e hh he]; exact Or.inl rfl

theorem version_run_bounds (ops : List Op) :
    ∀ kcc : knownCellsCache, minInt ≤ kcc.knownCells.Version →
      kcc.knownCells.Version + (ops.length : Int) ≤ maxInt →
      kcc.knownCells.Version ≤ (run kcc ops).knownCells.Version ∧
        (run kcc ops).knownCells.Version ≤ kcc.knownCells.Version + (ops.length : Int) := by
  induction ops with
  | nil => intro kcc _ _; simp [run]
  | cons op ops ih =>
    intro kcc hlo hhi
    simp only [List.length_cons, Nat.cast_add, Nat.cast_one] at hhi ⊢
    have hlt : kcc.knownCells.Version < maxInt := by omega
    have h1 := version_step kcc op
    rw [wrapInt_succ _ hlo hlt] at h1
    simp only [run]
    rcases h1 with h1 | h1
    · have h2 := ih (step kcc op) (by rw [h1]; exact hlo) (by rw [h1]; omega)
      rw [h1] at h2
      omega
    · have h2 := ih (step kcc op) (by rw [h1]; omega) (by rw [h1]; omega)
      rw [h1] at h2
      omega

theorem run_append (ops1 ops2 : List Op) :
    ∀ kcc : knownCellsCache, run kcc (ops1 ++ ops2) = run (run kcc ops1) ops2 := by
  induction ops1 with
  | nil => intro kcc; rfl
  | cons op ops ih => intro kcc; simp only [List.cons_append, run]; exact ih _

/-! ## UTF-8 -/

theorem byte_eq (b : UInt8) (n : Nat) (h : n = b.toNat) : UInt8.ofNat n = b := by
  apply UInt8.ext
  have hb : b.toNat < 256 := b.toNat_lt
  rw [UInt8.toNat_ofNat_of_lt (by rw [h]; exact hb), h]

theorem toNat_ofNat_of_valid (n : Nat) (h : n.isValidChar) : (Char.ofNat n).toNat = n := by
  unfold Char.ofNat
  rw [dif_pos h]
  rfl


theorem rune3_facts (x y z : Nat) (hx : 224 ≤ x) (hx2 : x < 240)
    (hy : (if x = 224 then 160 else 128) ≤ y) (hy2 : y ≤ (if x = 237 then 159 else 191))
    (hz : 128 ≤ z) (hz2 : z ≤ 191) :
    ((x % 16 * 64 + y % 64) * 64 + z % 64).isValidChar ∧
      2048 ≤ (x % 16 * 64 + y % 64) * 64 + z % 64 ∧
      (x % 16 * 64 + y % 64) * 64 + z % 64 < 65536 ∧
      224 + ((x % 16 * 64 + y % 64) * 64 + z % 64) / 4096 = x ∧
      128 + ((x % 16 * 64 + y % 64) * 64 + z % 64) / 64 % 64 = y ∧
      128 + ((x % 16 * 64 + y % 64) * 64 + z % 64) % 64 = z := by
  have hy' : 128 ≤ y ∧ (x = 224 → 160 ≤ y) := by
    by_cases e : x = 224
    · rw [if_pos e] at hy; exact ⟨by omega, fun _ => hy⟩
    · rw [if_neg e] at hy; exact ⟨hy, fun h => absurd h e⟩
  have hy2' : y ≤ 191 ∧ (x = 237 → y ≤ 159) := by
    by_cases e : x = 237
    · rw [if_pos e] at hy2; exact ⟨by omega, fun _ => hy2⟩
    · rw [if_neg e] at hy2; exact ⟨hy2, fun h => absurd h e⟩
  obtain ⟨a1, a2⟩ := hy'
  obtain ⟨a3, a4⟩ := hy2'
  refine ⟨?_, ?_, by omega, by omega, by omega, by omega⟩
  · unfold Nat.isValidChar
    by_cases e : x < 237
    · left; omega
    · by_cases e2 : x = 237
      · have := a4 e2; left; omega
      · right; omega
  · by_cases e : x = 224
    · have := a2 e; omega
    · omega

theorem rune4_facts (x y z w : Nat) (hx : 240 ≤ x) (hx2 : x < 245)
    (hy : (if x = 240 then 144 else 128) ≤ y) (hy2 : y ≤ (if x = 244 then 143 else 191))
    (hz : 128 ≤ z) (hz2 : z ≤ 191) (hw : 128 ≤ w) (hw2 : w ≤ 191) :
    (((x % 8 * 64 + y % 64) * 64 + z % 64) * 64 + w % 64).isValidChar ∧
      65536 ≤ ((x % 8 * 64 + y % 64) * 64 + z % 64) * 64 + w % 64 ∧
      240 + (((x % 8 * 64 + y % 64) * 64 + z % 64) * 64 + w % 64) / 262144 = x ∧
      128 + (((x % 8 * 64 + y % 64) * 64 + z % 64) * 64 + w % 64) / 4096 % 64 = y ∧
      128 + (((x % 8 * 64 + y % 64) * 64 + z % 64) * 64 + w % 64) / 64 % 64 = z ∧
      128 + (((x % 8 * 64 + y % 64) * 64 + z % 64) * 64 + w % 64) % 64 = w := by
  have hy' : 128 ≤ y ∧ (x = 240 → 144 ≤ y) := by
    by_cases e : x = 240
    · rw [if_pos e] at hy; exact ⟨by omega, fun _ => hy⟩
    · rw [if_neg e] at hy; exact ⟨hy, fun h => absurd h e⟩
  have hy2' : y ≤ 191 ∧ (x = 244 → y ≤ 143) := by
    by_cases e : x = 244
    · rw [if_pos e] at hy2; exact ⟨by omega, fun _ => hy2⟩
    · rw [if_neg e] at hy2; exact ⟨hy2, fun h => absurd h e⟩
  obtain ⟨a1, a2⟩ := hy'
  obtain ⟨a3, a4⟩ := hy2'
  refine ⟨?_, ?_, by omega, by omega, by omega, by omega⟩
  · unfold Nat.isValidChar
    right
    by_cases e : x = 244
    · have := a4 e; omega
    · omega
  · by_cases e : x = 240
    · have := a2 e; omega
    · omega

theorem decodeRune_spec (s : List UInt8) (r size : Nat) (h : decodeRune s = some (r, size)) :
    r.isValidChar ∧ 1 ≤ size ∧ utf8Bytes (Char.ofNat r) ++ s.drop size = s := by
  cases s with
  | nil => simp [decodeRune] at h
  | cons b0 rest =>
    have hb0 := b0.toNat_lt
    unfold decodeRune at h
    simp only at h
    by_cases c1 : b0.toNat < 128
    · rw [if_pos c1] at h
      simp only [Option.some.injEq, Prod.mk.injEq] at h
      obtain ⟨hr, hs⟩ := h
      subst hr hs
      have hv : (b0.toNat).isValidChar := Or.inl (by omega)
      refine ⟨hv, le_refl _, ?_⟩
      simp only [utf8Bytes, toNat_ofNat_of_valid _ hv, c1, if_true, List.drop_succ_cons,
        List.drop_zero, List.singleton_append, byte_eq b0 _ rfl]
    rw [if_neg c1] at h
    by_cases c2 : b0.toNat < 194
    · rw [if_pos c2] at h; exact absurd h (by simp)
    rw [if_neg c2] at h
    by_cases c3 : b0.toNat < 224
    · rw [if_pos c3] at h
      cases rest with
      | nil => exact absurd h (by simp)
      | cons b1 rest1 =>
        have hb1 := b1.toNat_lt
        simp only at h
        by_cases d : 128 ≤ b1.toNat ∧ b1.toNat ≤ 191
        · rw [if_pos d] at h
          simp only [Option.some.injEq, Prod.mk.injEq] at h
          obtain ⟨hr, hs⟩ := h
          subst hr hs
          have hv : (b0.toNat % 32 * 64 + b1.toNat % 64).isValidChar := Or.inl (by omega)
          refine ⟨hv, by omega, ?_⟩
          have k1 : ¬ b0.toNat % 32 * 64 + b1.toNat % 64 < 128 := by omega
          have k2 : b0.toNat % 32 * 64 + b1.toNat % 64 < 2048 := by omega
          simp only [utf8Bytes, toNat_ofNat_of_valid _ hv, k1, k2, if_true, if_false,
            List.drop_succ_cons, List.drop_zero, List.cons_append, List.nil_append,
            byte_eq b0 (192 + (b0.toNat % 32 * 64 + b1.toNat % 64) / 64) (by omega),
            byte_eq b1 (128 + (b0.toNat % 32 * 64 + b1.toNat % 64) % 64) (by omega)]
        · rw [if_neg d] at h; exact absurd h (by simp)
    rw [if_neg c3] at h
    by_cases c4 : b0.toNat < 240
    · rw [if_pos c4] at h
      cases rest with
      | nil => exact absurd h (by simp)
      | cons b1 rest1 =>
        cases rest1 with
        | nil => exact absurd h (by simp)
        | cons b2 rest2 =>
          simp only at h
          by_cases d : (if b0.toNat = 224 then 160 else 128) ≤ b1.toNat ∧
              b1.toNat ≤ (if b0.toNat = 237 then 159 else 191) ∧
              128 ≤ b2.toNat ∧ b2.toNat ≤ 191
          · rw [if_pos d] at h
            simp only [Option.some.injEq, Prod.mk.injEq] at h
            obtain ⟨hr, hs⟩ := h
            subst hr hs
            obtain ⟨hv, k1, k2, e0, e1, e2⟩ :=
              rune3_facts b0.toNat b1.toNat b2.toNat (by omega) c4 d.1 d.2.1 d.2.2.1 d.2.2.2
            refine ⟨hv, by omega, ?_⟩
            have n1 : ¬ (b0.toNat % 16 * 64 + b1.toNat % 64) * 64 + b2.toNat % 64 < 128 := by
              omega
            have n2 : ¬ (b0.toNat % 16 * 64 + b1.toNat % 64) * 64 + b2.toNat % 64 < 2048 := by
              omega
            simp only [utf8Bytes, toNat_ofNat_of_valid _ hv, n1, n2, k2, if_true, if_false,
              List.drop_succ_cons, List.drop_zero, List.cons_append, List.nil_append,
              byte_eq b0 _ e0, byte_eq b1 _ e1, byte_eq b2 _ e2]
          · rw [if_neg d] at h; exact absurd h (by simp)
    rw [if_neg c4] at h
    by_cases c5 : b0.toNat < 245
    · rw [if_pos c5] at h
      cases rest with
      | nil => exact absurd h (by simp)
      | cons b1 rest1 =>
        cases rest1 with
        | nil => exact absurd h (by simp)
        | cons b2 rest2 =>
          cases rest2 with
          | nil => exact absurd h (by simp)
          | cons b3 rest3 =>
            simp only at h
            by_cases d : (if b0.toNat = 240 then 144 else 128) ≤ b1.toNat ∧
                b1.toNat ≤ (if b0.toNat = 244 then 143 else 191) ∧
                128 ≤ b2.toNat ∧ b2.toNat ≤ 191 ∧ 128 ≤ b3.toNat ∧ b3.toNat ≤ 191
            · rw [if_pos d] at h
              simp only [Option.some.injEq, Prod.mk.injEq] at h
              obtain ⟨hr, hs⟩ := h
              subst hr hs
              obtain ⟨hv, k1, e0, e1, e2, e3⟩ :=
                rune4_facts b0.toNat b1.toNat b2.toNat b3.toNat (by omega) c5 d.1 d.2.1
                  d.2.2.1 d.2.2.2.1 d.2.2.2.2.1 d.2.2.2.2.2
              refine ⟨hv, by omega, ?_⟩
              have n1 : ¬ ((b0.toNat % 8 * 64 + b1.toNat % 64) * 64 + b2.toNat % 64) * 64
                  + b3.toNat % 64 < 128 := by omega
              have n2 : ¬ ((b0.toNat % 8 * 64 + b1.toNat % 64) * 64 + b2.toNat % 64) * 64
                  + b3.toNat % 64 < 2048 := by omega
              have n3 : ¬ ((b0.toNat % 8 * 64 + b1.toNat % 64) * 64 + b2.toNat % 64) * 64
                  + b3.toNat % 64 < 65536 := by omega
              simp only [utf8Bytes, toNat_ofNat_of_valid _ hv, n1, n2, n3, if_false,
                List.drop_succ_cons, List.drop_zero, List.cons_append, List.nil_append,
                byte_eq b0 _ e0, byte_eq b1 _ e1, byte_eq b2 _ e2, byte_eq b3 _ e3]
            · rw [if_neg d] at h; exact absurd h (by simp)
    rw [if_neg c5] at h
    exact absurd h (by simp)

theorem runesAux_valid (fuel : Nat) :
    ∀ s : List UInt8, s.length ≤ fuel → (runesAux fuel s).all Option.isSome = true →
      ((runesAux fuel s).map (fun r => utf8Bytes (r.getD (Char.ofNat 65533)))).flatten = s := by
  induction fuel with
  | zero =>
    intro s hs _
    have : s = [] := List.eq_nil_of_length_eq_zero (by omega)
    subst this; rfl
  | succ fuel ih =>
    intro s hs hall
    cases s with
    | nil => rfl
    | cons b rest =>
      cases hd : decodeRune (b :: rest) with
      | none => simp [runesAux, hd] at hall
      | some p =>
        obtain ⟨r, size⟩ := p
        obtain ⟨_, hsize, hbytes⟩ := decodeRune_spec (b :: rest) r size hd
        simp only [runesAux, hd, List.all_cons, Option.isSome_some, Bool.true_and] at hall
        have hlen : ((b :: rest).drop size).length ≤ fuel := by
          rw [List.length_drop]
          simp only [List.length_cons] at hs ⊢
          omega
        simp only [runesAux, hd, List.map_cons, List.flatten_cons, Option.getD_some]
        rw [ih _ hlen hall]
        exact hbytes

theorem toValidUTF8_of_valid (s : GoString) (h : validUTF8 s = true) : toValidUTF8 s = s :=
  runesAux_valid s.length s (le_refl _) h

/-! ## Reading back what `MarshalIndent` wrote -/

theorem expect_append (lit rest : List Char) : expect lit (lit ++ rest) = some rest := by
  induction lit with
  | nil => cases rest <;> rfl
  | cons c cs ih => simp [expect, ih]

theorem digitValue_digitChar (k : Nat) (hk : k < 10) :
    digitValue (Nat.digitChar k) = some k := by
  interval_cases k <;> rfl

theorem decodeDigits_of_not_digit (acc : Nat) (c : Char) (rest : List Char)
    (h : digitValue c = none) : decodeDigits acc (c :: rest) = (acc, c :: rest) := by
  simp [decodeDigits, h]

/-- The number a list of decimal digits writes, on top of `acc`. -/
theorem decodeDigits_append (l : List Char) :
    ∀ (acc : Nat) (tail : List Char), (∀ c ∈ l, (digitValue c).isSome = true) →
      decodeDigits acc (l ++ tail) =
        decodeDigits (l.foldl (fun a c => a * 10 + (digitValue c).getD 0) acc) tail := by
  induction l with
  | nil => intro acc tail _; rfl
  | cons c cs ih =>
    intro acc tail h
    have hc := h c (List.mem_cons_self _ _)
    obtain ⟨d, hd⟩ := Option.isSome_iff_exists.1 hc
    have hrest : ∀ c2 ∈ cs, (digitValue c2).isSome = true :=
      fun c2 h2 => h c2 (List.mem_cons_of_mem _ h2)
    simp only [List.cons_append, decodeDigits, hd, List.foldl_cons, Option.getD_some]
    exact ih _ tail hrest

theorem toDigitsCore_spec (fuel : Nat) :
    ∀ (n : Nat) (ds : List Char), n < fuel →
      (∀ c ∈ Nat.toDigitsCore 10 fuel n [], (digitValue c).isSome = true) ∧
      Nat.toDigitsCore 10 fuel n [] ≠ [] ∧
      Nat.toDigitsCore 10 fuel n ds = Nat.toDigitsCore 10 fuel n [] ++ ds ∧
      (Nat.toDigitsCore 10 fuel n []).foldl (fun a c => a * 10 + (digitValue c).getD 0) 0 = n := by
  induction fuel with
  | zero => intro n ds h; omega
  | succ fuel ih =>
    intro n ds hn
    have hd : digitValue (Nat.digitChar (n % 10)) = some (n % 10) :=
      digitValue_digitChar _ (Nat.mod_lt _ (by decide))
    by_cases h0 : n / 10 = 0
    · have hlt : n < 10 := by omega
      have hmod : n % 10 = n := Nat.mod_eq_of_lt hlt
      simp only [Nat.toDigitsCore, h0, if_true]
      refine ⟨?_, by simp, by simp, ?_⟩
      · intro c hc
        simp only [List.mem_singleton] at hc
        rw [hc, hd]; rfl
      · simp only [List.foldl_cons, List.foldl_nil, hd, Option.getD_some]
        omega
    · have hlt : n / 10 < fuel := by omega
      obtain ⟨i1, i2, _, i4⟩ := ih (n / 10) [] hlt
      have e1 := (ih (n / 10) [Nat.digitChar (n % 10)] hlt).2.2.1
      have e2 := (ih (n / 10) (Nat.digitChar (n % 10) :: ds) hlt).2.2.1
      simp only [Nat.toDigitsCore, h0, if_false]
      refine ⟨?_, ?_, ?_, ?_⟩
      · intro c hc
        rw [e1, List.mem_append, List.mem_singleton] at hc
        rcases hc with hc | hc
        · exact i1 c hc
        · rw [hc, hd]; rfl
      · rw [e1]; simp
      · rw [e1, e2]; simp
      · rw [e1, List.foldl_append, i4]
        simp only [List.foldl_cons, List.foldl_nil, hd, Option.getD_some]
        omega

theorem decodeInt_of_digits (l : List Char) (c : Char) (tail : List Char)
    (hl : ∀ x ∈ l, (digitValue x).isSome = true) (hne : l ≠ [])
    (hc : digitValue c = none) :
    decodeInt (l ++ c :: tail) =
      some (((l.foldl (fun a x => a * 10 + (digitValue x).getD 0) 0 : Nat) : Int), c :: tail) ∧
    decodeInt (Char.ofNat 45 :: (l ++ c :: tail)) =
      some (-((l.foldl (fun a x => a * 10 + (digitValue x).getD 0) 0 : Nat) : Int), c :: tail) := by
  have hrun := decodeDigits_append l 0 (c :: tail) hl
  rw [decodeDigits_of_not_digit _ c tail hc] at hrun
  cases l with
  | nil => exact absurd rfl hne
  | cons x xs =>
    have hx := hl x (List.mem_cons_self _ _)
    have hx45 : ¬ x.toNat = 45 := by
      intro h45
      simp [digitValue, h45] at hx
    constructor
    · simp only [List.cons_append] at hrun ⊢
      simp only [decodeInt, hx45, if_false, hx, if_true, hrun]
    · simp only [List.cons_append] at hrun ⊢
      have h45 : (Char.ofNat 45).toNat = 45 := by decide
      simp only [decodeInt, h45, if_true, hx, hrun]

theorem decodeInt_encodeInt (i : Int) (c : Char) (tail : List Char)
    (hc : digitValue c = none) :
    decodeInt (encodeInt i ++ c :: tail) = some (i, c :: tail) := by
  cases i with
  | ofNat m =>
    obtain ⟨i1, i2, _, i4⟩ := toDigitsCore_spec (m + 1) m [] (Nat.lt_succ_self m)
    have hdata : encodeInt (Int.ofNat m) = Nat.toDigitsCore 10 (m + 1) m [] := rfl
    rw [hdata, (decodeInt_of_digits _ c tail i1 i2 hc).1, i4]
    rfl
  | negSucc m =>
    obtain ⟨i1, i2, _, i4⟩ := toDigitsCore_spec (m + 1 + 1) (m + 1) [] (Nat.lt_succ_self _)
    have hdata : encodeInt (Int.negSucc m) =
        Char.ofNat 45 :: Nat.toDigitsCore 10 (m + 1 + 1) (m + 1) [] := rfl
    rw [hdata, List.cons_append, (decodeInt_of_digits _ c tail i1 i2 hc).2, i4]
    rfl

theorem hexValue_hexDigit (k : Nat) (hk : k < 16) : hexValue (hexDigit k) = some k := by
  interval_cases k <;> rfl

theorem decodeChars_escape (x y : Char) (tail : List Char) (hx : ¬ x.toNat = 117)
    (hu : unescape x = some y) :
    decodeChars (Char.ofNat 92 :: x :: tail) =
      (decodeChars tail).map (fun p => (y :: p.1, p.2)) := by
  have h2 : (Char.ofNat 92).toNat = 92 := by decide
  rw [decodeChars.eq_def]
  simp [h2, hx, hu]

theorem decodeChars_unicode (a b c d : Char) (n : Nat) (tail : List Char)
    (h : hexValue4 a b c d = some n) (hv : n.isValidChar) :
    decodeChars (Char.ofNat 92 :: 'u' :: a :: b :: c :: d :: tail) =
      (decodeChars tail).map (fun p => (Char.ofNat n :: p.1, p.2)) := by
  have h2 : (Char.ofNat 92).toNat = 92 := by decide
  have h3 : ('u' : Char).toNat = 117 := by decide
  rw [decodeChars.eq_def]
  simp [h2, h3, h, hv]

theorem decodeChars_raw (c : Char) (tail : List Char) (h34 : ¬ c.toNat = 34)
    (h92 : ¬ c.toNat = 92) (h32 : ¬ c.toNat < 32) :
    decodeChars (c :: tail) = (decodeChars tail).map (fun p => (c :: p.1, p.2)) := by
  rw [decodeChars.eq_def]
  simp [h34, h92, h32]

theorem decodeChars_quote (tail : List Char) :
    decodeChars (Char.ofNat 34 :: tail) = some ([], tail) := by
  have h : (Char.ofNat 34).toNat = 34 := by decide
  rw [decodeChars.eq_def]
  simp [h]

theorem char_eq_of_toNat (c : Char) (n : Nat) (h : c.toNat = n) : Char.ofNat n = c := by
  rw [← h]; exact Char.ofNat_toNat c

theorem decodeChars_escapeByte (c : Char) (tail : List Char) (h : c.toNat < 256) :
    decodeChars (escapeByte c.toNat ++ tail) =
      (decodeChars tail).map (fun p => (c :: p.1, p.2)) := by
  have h16 : c.toNat / 16 < 16 := by omega
  have hm : c.toNat % 16 < 16 := Nat.mod_lt _ (by decide)
  have h0 : hexValue '0' = some 0 := by decide
  have hv : hexValue4 '0' '0' (hexDigit (c.toNat / 16)) (hexDigit (c.toNat % 16)) =
      some c.toNat := by
    simp only [hexValue4, h0, hexValue_hexDigit _ h16, hexValue_hexDigit _ hm]
    congr 1
    omega
  have := decodeChars_unicode '0' '0' (hexDigit (c.toNat / 16)) (hexDigit (c.toNat % 16))
    c.toNat tail hv (Or.inl (by omega))
  rw [Char.ofNat_toNat] at this
  exact this

theorem decodeChars_encodeChar (c : Char) (tail : List Char) :
    decodeChars (encodeChar c ++ tail) =
      (decodeChars tail).map (fun p => (c :: p.1, p.2)) := by
  unfold encodeChar
  simp only
  by_cases h1 : c.toNat = 34 ∨ c.toNat = 92
  · rw [if_pos h1]
    have hx : ¬ c.toNat = 117 := by omega
    have hu : unescape c = some c := by
      rcases h1 with h1 | h1
      · simp only [unescape, h1, if_true, char_eq_of_toNat c 34 h1]
      · have : ¬ (92 : Nat) = 34 := by decide
        simp only [unescape, h1, this, if_false, if_true, char_eq_of_toNat c 92 h1]
    exact decodeChars_escape c c tail hx hu
  rw [if_neg h1]
  by_cases h2 : c.toNat = 8
  · rw [if_pos h2]
    have := decodeChars_escape 'b' (Char.ofNat 8) tail (by decide) (by decide)
    rw [char_eq_of_toNat c 8 h2] at this
    exact this
  rw [if_neg h2]
  by_cases h3 : c.toNat = 12
  · rw [if_pos h3]
    have := decodeChars_escape 'f' (Char.ofNat 12) tail (by decide) (by decide)
    rw [char_eq_of_toNat c 12 h3] at this
    exact this
  rw [if_neg h3]
  by_cases h4 : c.toNat = 10
  · rw [if_pos h4]
    have := decodeChars_escape 'n' (Char.ofNat 10) tail (by decide) (by decide)
    rw [char_eq_of_toNat c 10 h4] at this
    exact this
  rw [if_neg h4]
  by_cases h5 : c.toNat = 13
  · rw [if_pos h5]
    have := decodeChars_escape 'r' (Char.ofNat 13) tail (by decide) (by decide)
    rw [char_eq_of_toNat c 13 h5] at this
    exact this
  rw [if_neg h5]
  by_cases h6 : c.toNat = 9
  · rw [if_pos h6]
    have := decodeChars_escape 't' (Char.ofNat 9) tail (by decide) (by decide)
    rw [char_eq_of_toNat c 9 h6] at this
    exact this
  rw [if_neg h6]
  by_cases h7 : c.toNat < 32 ∨ c.toNat = 60 ∨ c.toNat = 62 ∨ c.toNat = 38
  · rw [if_pos h7]
    exact decodeChars_escapeByte c tail (by omega)
  rw [if_neg h7]
  by_cases h8 : c.toNat = 8232
  · rw [if_pos h8]
    have := decodeChars_unicode '2' '0' '2' '8' 8232 tail (by decide) (by decide)
    rw [char_eq_of_toNat c 8232 h8] at this
    exact this
  rw [if_neg h8]
  by_cases h9 : c.toNat = 8233
  · rw [if_pos h9]
    have := decodeChars_unicode '2' '0' '2' '9' 8233 tail (by decide) (by decide)
    rw [char_eq_of_toNat c 8233 h9] at this
    exact this
  rw [if_neg h9]
  exact decodeChars_raw c tail (by omega) (by omega) (by omega)

theorem decodeChars_encodeRune (r : Option Char) (tail : List Char) :
    decodeChars (encodeRune r ++ tail) =
      (decodeChars tail).map (fun p => (r.getD (Char.ofNat 65533) :: p.1, p.2)) := by
  cases r with
  | some c => exact decodeChars_encodeChar c tail
  | none => exact decodeChars_unicode 'f' 'f' 'f' 'd' 65533 tail (by decide) (by decide)

theorem decodeChars_encode (rs : List (Option Char)) (tail : List Char) :
    decodeChars ((rs.map encodeRune).flatten ++ Char.ofNat 34 :: tail) =
      some (rs.map (fun r => r.getD (Char.ofNat 65533)), tail) := by
  induction rs with
  | nil => exact decodeChars_quote tail
  | cons r rs ih =>
    simp only [List.map_cons, List.flatten_cons, List.append_assoc]
    rw [decodeChars_encodeRune, ih]
    rfl

theorem decodeString_encodeString (s : GoString) (tail : List Char) :
    decodeString (encodeString s ++ tail) = some (toValidUTF8 s, tail) := by
  have h : (Char.ofNat 34).toNat = 34 := by decide
  unfold encodeString
  simp only [List.append_assoc, List.singleton_append, List.cons_append, List.nil_append,
    decodeString, h, if_true]
  rw [decodeChars_encode]
  simp [toValidUTF8, List.map_map, Function.comp_def]

theorem encodeElems_cons_cons (s s2 : GoString) (t : List GoString) :
    encodeElems (s :: s2 :: t) =
      [Char.ofNat 10, ' ', ' ', ' ', ' '] ++ (encodeString s ++ ',' :: encodeElems (s2 :: t)) := by
  simp [encodeElems]

theorem encodeElems_length (ss : List GoString) : ss.length ≤ (encodeElems ss).length := by
  induction ss with
  | nil => simp [encodeElems]
  | cons s t ih =>
    cases t with
    | nil => simp [encodeElems]
    | cons s2 t =>
      rw [encodeElems_cons_cons]
      simp only [List.length_append, List.length_cons, List.length_nil] at ih ⊢
      omega

theorem decodeElems_encodeElems (ss : List GoString) :
    ∀ (fuel : Nat) (tail : List Char), ss ≠ [] → ss.length ≤ fuel →
      decodeElems fuel (encodeElems ss ++ ([Char.ofNat 10, ' ', ' ', ']'] ++ tail)) =
        some (ss.map toValidUTF8, tail) := by
  induction ss with
  | nil => intro fuel tail h; exact absurd rfl h
  | cons s t ih =>
    intro fuel tail _ hfuel
    cases fuel with
    | zero => simp at hfuel
    | succ fuel =>
      cases t with
      | nil =>
        have e : encodeElems [s] ++ ([Char.ofNat 10, ' ', ' ', ']'] ++ tail) =
            [Char.ofNat 10, ' ', ' ', ' ', ' '] ++
              (encodeString s ++ (Char.ofNat 10 :: ([' ', ' ', ']'] ++ tail))) := by
          simp [encodeElems]
        have hc : ¬ Char.ofNat 10 = ',' := by decide
        have hx : expect [Char.ofNat 10, ' ', ' ', ']'] (Char.ofNat 10 :: ([' ', ' ', ']'] ++ tail))
            = some tail := expect_append [Char.ofNat 10, ' ', ' ', ']'] tail
        rw [e]
        simp only [decodeElems, expect_append, decodeString_encodeString, hc, if_false, hx,
          List.map_cons, List.map_nil]
      | cons s2 t =>
        have hrec := ih fuel tail (by simp) (by simpa using hfuel)
        have e : encodeElems (s :: s2 :: t) ++ ([Char.ofNat 10, ' ', ' ', ']'] ++ tail) =
            [Char.ofNat 10, ' ', ' ', ' ', ' '] ++
              (encodeString s ++
                (',' :: (encodeElems (s2 :: t) ++ ([Char.ofNat 10, ' ', ' ', ']'] ++ tail)))) := by
          rw [encodeElems_cons_cons]
          simp
        rw [e]
        simp only [decodeElems, expect_append, decodeString_encodeString, if_true, hrec,
          Option.map_some', List.map_cons]

theorem decodeCells_encodeCells (cells : Option (List GoString)) (tail : List Char) :
    decodeCells (encodeCells cells ++ tail) = some (cells.map (List.map toValidUTF8), tail) := by
  cases cells with
  | none =>
    have h := expect_append ['n', 'u', 'l', 'l'] tail
    simp only [encodeCells, decodeCells, h, Option.map_none']
  | some ss =>
    cases ss with
    | nil =>
      have h1 : expect ['n', 'u', 'l', 'l'] (['[', ']'] ++ tail) = none := by
        simp [expect]
      have h2 := expect_append ['[', ']'] tail
      simp only [encodeCells, decodeCells, h1, h2, Option.map_some', List.map_nil]
    | cons s t =>
      have e : encodeCells (some (s :: t)) ++ tail =
          '[' :: (encodeElems (s :: t) ++ ([Char.ofNat 10, ' ', ' ', ']'] ++ tail)) := by
        simp [encodeCells]
      have h1 : expect ['n', 'u', 'l', 'l']
          ('[' :: (encodeElems (s :: t) ++ ([Char.ofNat 10, ' ', ' ', ']'] ++ tail))) = none := by
        simp [expect]
      have h2 : expect ['[', ']']
          ('[' :: (encodeElems (s :: t) ++ ([Char.ofNat 10, ' ', ' ', ']'] ++ tail))) = none := by
        cases t with
        | nil => simp [expect, encodeElems]
        | cons s2 t => rw [encodeElems_cons_cons]; simp [expect]
      have h3 : expect ['[']
          ('[' :: (encodeElems (s :: t) ++ ([Char.ofNat 10, ' ', ' ', ']'] ++ tail))) =
          some (encodeElems (s :: t) ++ ([Char.ofNat 10, ' ', ' ', ']'] ++ tail)) :=
        expect_append ['['] _
      have hlen : (s :: t).length ≤
          (encodeElems (s :: t) ++ ([Char.ofNat 10, ' ', ' ', ']'] ++ tail)).length := by
        have := encodeElems_length (s :: t)
        simp only [List.length_append] at this ⊢
        omega
      rw [e]
      simp only [decodeCells, h1, h2, h3,
        decodeElems_encodeElems (s :: t) _ tail (by simp) hlen, Option.map_some']

theorem map_toValidUTF8_of_valid (cells : Option (List GoString))
    (h : cellsValid cells = true) : cells.map (List.map toValidUTF8) = cells := by
  cases cells with
  | none => rfl
  | some ss =>
    simp only [cellsValid, List.all_eq_true] at h
    simp only [Option.map_some', Option.some.injEq]
    induction ss with
    | nil => rfl
    | cons s t ih =>
      have hs := h s (List.mem_cons_self _ _)
      have ht : ∀ x ∈ t, validUTF8 x = true := fun x hx => h x (List.mem_cons_of_mem _ hx)
      simp only [List.map_cons, toValidUTF8_of_valid s hs, ih ht]

/-- Reading back what `MarshalIndent` wrote gives the version that was
written, and the cells with every byte that starts no valid UTF-8 encoding
replaced by U+FFFD. -/
theorem decode_encode (k : KnownCells) :
    decodeKnownCells (encodeKnownCells k) =
      some { Version := k.Version, Cells := k.Cells.map (List.map toValidUTF8) } := by
  have e : (encodeKnownCells k).data =
      [Char.ofNat 123, Char.ofNat 10, ' ', ' ', Char.ofNat 34, 'V', 'e', 'r', 's', 'i', 'o', 'n',
        Char.ofNat 34, ':', ' '] ++
      (encodeInt k.Version ++ (',' ::
        ([Char.ofNat 10, ' ', ' ', Char.ofNat 34, 'C', 'e', 'l', 'l', 's', Char.ofNat 34, ':', ' '] ++
          (encodeCells k.Cells ++ [Char.ofNat 10, Char.ofNat 125])))) := by
    have hv : encodeString "Version" =
        [Char.ofNat 34, 'V', 'e', 'r', 's', 'i', 'o', 'n', Char.ofNat 34] := by decide
    have hc : encodeString "Cells" =
        [Char.ofNat 34, 'C', 'e', 'l', 'l', 's', Char.ofNat 34] := by decide
    simp [encodeKnownCells, hv, hc]
  have hcomma : digitValue ',' = none := by decide
  have hx : expect [',', Char.ofNat 10, ' ', ' ', Char.ofNat 34, 'C', 'e', 'l', 'l', 's',
      Char.ofNat 34, ':', ' ']
      (',' :: ([Char.ofNat 10, ' ', ' ', Char.ofNat 34, 'C', 'e', 'l', 'l', 's', Char.ofNat 34,
        ':', ' '] ++ (encodeCells k.Cells ++ [Char.ofNat 10, Char.ofNat 125]))) =
      some (encodeCells k.Cells ++ [Char.ofNat 10, Char.ofNat 125]) :=
    expect_append [',', Char.ofNat 10, ' ', ' ', Char.ofNat 34, 'C', 'e', 'l', 'l', 's',
      Char.ofNat 34, ':', ' '] _
  have h10 : (Char.ofNat 10).toNat = 10 := by decide
  have h125 : (Char.ofNat 125).toNat = 125 := by decide
  unfold decodeKnownCells
  rw [e]
  simp only [expect_append, decodeInt_encodeInt _ ',' _ hcomma, hx, decodeCells_encodeCells,
    h10, h125, and_self, if_true]

/-- Reading back what `MarshalIndent` wrote gives the snapshot that was written
when every cell name is valid UTF-8. -/
theorem decode_encode_of_valid (k : KnownCells) (h : cellsValid k.Cells = true) :
    decodeKnownCells (encodeKnownCells k) = some k := by
  rw [decode_encode, map_toValidUTF8_of_valid k.Cells h]

/-! ## The claims -/

/-- C1, at its failing input. A new cache; `get` with upstream `["a"]`; `flush`;
`get` with upstream returning a nil slice, every clock reading far more than
five minutes past the zero timestamp. Both calls succeed, both payloads carry
Version 1, and their Cells differ: `["a"]` in the first, `null` in the second.
So an unchanged Version does not tell that the content is the same. -/
theorem same_version_different_cells :
    (trace newKnownCellsCache
        [Op.get 63500000000000000000 ⟨some ["a"], none⟩, Op.flush,
         Op.get 63500000001000000000 ⟨none, none⟩]).map
      (fun o => (o.bytes, o.err, o.kcc.knownCells))
    = [(some "\x7b\n  \"Version\": 1,\n  \"Cells\": [\n    \"a\"\n  ]\n\x7d", none,
          { Version := 1, Cells := some ["a"] }),
       (some "\x7b\n  \"Version\": 1,\n  \"Cells\": null\n\x7d", none,
          { Version := 1, Cells := none })] := by
  decide

/-- C2: a `get` asks upstream nothing exactly when `now` minus the stored
timestamp is below five minutes; then it returns the stored payload with a nil
error and leaves the whole cache as it was; from five minutes on (five minutes
sharp included) it asks upstream exactly once. -/
theorem get_hit_iff_fresh (kcc : knownCellsCache) (now : Int) (ts : CellsReply) :
    ((kcc.get now ts).upstreamCalls = 0 ↔ now - kcc.timestamp < 5 * Minute) ∧
    (now - kcc.timestamp < 5 * Minute →
      kcc.get now ts = { bytes := kcc.result, err := none, kcc := kcc, upstreamCalls := 0 }) ∧
    (5 * Minute ≤ now - kcc.timestamp → (kcc.get now ts).upstreamCalls = 1) := by
  refine ⟨?_, get_of_hit kcc now ts, ?_⟩
  · rw [get_upstreamCalls]
    by_cases h : now - kcc.timestamp < 5 * Minute <;> simp [h]
  · intro h
    rw [get_upstreamCalls, if_neg (not_lt.2 h)]

/-- C3: when `get` misses and `GetKnownCells` returns the error `e`, `get`
returns nil bytes and that same error, and the cache (timestamp, version,
cells, payload) is the one before the call. -/
theorem get_upstream_error (kcc : knownCellsCache) (now : Int) (ts : CellsReply) (e : GoError)
    (hmiss : 5 * Minute ≤ now - kcc.timestamp) (herr : ts.err = some e) :
    (kcc.get now ts).bytes = none ∧ (kcc.get now ts).err = some e ∧
      (kcc.get now ts).kcc = kcc ∧ (kcc.get now ts).upstreamCalls = 1 := by
  rw [get_of_fail kcc now ts e (not_lt.2 hmiss) herr]
  exact ⟨rfl, rfl, rfl, rfl⟩

/-- C3 at a concrete cache: a cache holding Version 1 with `["a"]`, the window
elapsed, upstream down. -/
theorem get_upstream_error_witness :
    let kcc : knownCellsCache :=
      { timestamp := 63500000000000000000, knownCells := { Version := 1, Cells := some ["a"] },
        result := some (encodeKnownCells { Version := 1, Cells := some ["a"] }) }
    let o := kcc.get 63500000300000000000 ⟨none, some "no route to host"⟩
    o.bytes = none ∧ o.err = some "no route to host" ∧ o.kcc = kcc ∧ o.upstreamCalls = 1 :=
  get_upstream_error _ 63500000300000000000 ⟨none, some "no route to host"⟩ "no route to host"
    (by decide) rfl

/-- C4 as stated fails, in two ways. On a new cache upstream first returns a
nil slice and, five minutes later, an empty slice that is not nil; no call in
between. Both calls are successful recomputations and the two item sequences
are identical (both empty), yet `reflect.DeepEqual` tells nil from empty and
the version after the second call is the version after the first plus 1. And
on a cache whose version is one below the largest `int`, upstream returns
`["a"]` and then `["b"]`: the first recomputation leaves the largest `int`,
the second one the smallest `int`, not one more. -/
theorem identical_items_version_bumped :
    ((newKnownCellsCache.get 63500000000000000000 ⟨none, none⟩).recomputed = true ∧
     ((newKnownCellsCache.get 63500000000000000000 ⟨none, none⟩).kcc.get
        63500000300000000000 ⟨some [], none⟩).recomputed = true ∧
     items (none : Option (List GoString)) = items (some []) ∧
     (newKnownCellsCache.get 63500000000000000000 ⟨none, none⟩).kcc.knownCells.Version = 0 ∧
     ((newKnownCellsCache.get 63500000000000000000 ⟨none, none⟩).kcc.get
        63500000300000000000 ⟨some [], none⟩).kcc.knownCells.Version = 1) ∧
    ((({ timestamp := zeroTime, knownCells := { Version := 9223372036854775806, Cells := none },
            result := none } : knownCellsCache).get
        63500000000000000000 ⟨some ["a"], none⟩).recomputed = true ∧
     ((({ timestamp := zeroTime, knownCells := { Version := 9223372036854775806, Cells := none },
            result := none } : knownCellsCache).get
        63500000000000000000 ⟨some ["a"], none⟩).kcc.get
        63500000300000000000 ⟨some ["b"], none⟩).recomputed = true ∧
     (({ timestamp := zeroTime, knownCells := { Version := 9223372036854775806, Cells := none },
            result := none } : knownCellsCache).get
        63500000000000000000 ⟨some ["a"], none⟩).kcc.knownCells.Version
       = 9223372036854775807 ∧
     ((({ timestamp := zeroTime, knownCells := { Version := 9223372036854775806, Cells := none },
            result := none } : knownCellsCache).get
        63500000000000000000 ⟨some ["a"], none⟩).kcc.get
        63500000300000000000 ⟨some ["b"], none⟩).kcc.knownCells.Version
       = -9223372036854775808) := by
  decide

/-- C4, amended: take two consecutive successful recomputations with no
`flush` between them, only hits and failed `get`s. The version after the
second is the version after the first if the two slices upstream returned are
deeply equal (same items in the same order, and both nil or both not nil), and
otherwise (a pure reordering included) the version after the first incremented
once as a Go `int`: exactly 1 more when the version after the first is an
`int` below the largest one, the smallest `int` at the largest one. -/
theorem version_between_recomputations (kcc : knownCellsCache) (now1 now2 : Int)
    (ts1 ts2 : CellsReply) (mid : List Op)
    (h1 : (kcc.get now1 ts1).recomputed = true)
    (hmid : quiet (kcc.get now1 ts1).kcc mid = true)
    (h2 : ((run (kcc.get now1 ts1).kcc mid).get now2 ts2).recomputed = true) :
    ((run (kcc.get now1 ts1).kcc mid).get now2 ts2).kcc.knownCells.Version =
        (if deepEqual ts2.cells ts1.cells then (kcc.get now1 ts1).kcc.knownCells.Version
         else wrapInt ((kcc.get now1 ts1).kcc.knownCells.Version + 1)) ∧
      (minInt ≤ (kcc.get now1 ts1).kcc.knownCells.Version →
        (kcc.get now1 ts1).kcc.knownCells.Version < maxInt →
        ((run (kcc.get now1 ts1).kcc mid).get now2 ts2).kcc.knownCells.Version =
          (kcc.get now1 ts1).kcc.knownCells.Version +
            (if deepEqual ts2.cells ts1.cells then 0 else 1)) ∧
      ((kcc.get now1 ts1).kcc.knownCells.Version = maxInt →
        deepEqual ts2.cells ts1.cells = false →
        ((run (kcc.get now1 ts1).kcc mid).get now2 ts2).kcc.knownCells.Version = minInt) := by
  rw [run_of_quiet mid _ hmid] at h2 ⊢
  have hc : (kcc.get now1 ts1).kcc.knownCells.Cells = ts1.cells := by
    have h := (recomputed_iff kcc now1 ts1).1 h1
    rw [get_of_fetch kcc now1 ts1 h.1 h.2]
    exact refresh_cells _ _
  have h := (recomputed_iff _ now2 ts2).1 h2
  have hv : ((kcc.get now1 ts1).kcc.get now2 ts2).kcc.knownCells.Version =
      (if deepEqual ts2.cells ts1.cells then (kcc.get now1 ts1).kcc.knownCells.Version
       else wrapInt ((kcc.get now1 ts1).kcc.knownCells.Version + 1)) := by
    rw [get_of_fetch _ now2 ts2 h.1 h.2]
    simp only
    rw [refresh_version, hc]
    by_cases he : ts2.cells = ts1.cells
    · simp [he, (deepEqual_iff _ _).2 rfl]
    · have hd : deepEqual ts2.cells ts1.cells = false := by
        cases hd : deepEqual ts2.cells ts1.cells
        · rfl
        · exact absurd ((deepEqual_iff _ _).1 hd) he
      simp [he, hd]
  refine ⟨hv, ?_, ?_⟩
  · intro hlo hhi
    rw [hv]
    cases hd : deepEqual ts2.cells ts1.cells
    · simp [wrapInt_succ _ hlo hhi]
    · simp
  · intro hmax hd
    rw [hv, hd, hmax]
    decide

/-- C4, amended, at a concrete run: upstream `["a","b"]`, then a hit and a
failed `get`, then upstream `["b","a"]`: the version goes from 1 to 2. -/
theorem version_between_recomputations_witness :
    ((run (newKnownCellsCache.get 63500000000000000000 ⟨some ["a", "b"], none⟩).kcc
        [Op.get 63500000001000000000 ⟨none, none⟩,
         Op.get 63500000300000000000 ⟨none, some "timeout"⟩]).get
      63500000301000000000 ⟨some ["b", "a"], none⟩).kcc.knownCells.Version =
    (newKnownCellsCache.get 63500000000000000000 ⟨some ["a", "b"], none⟩).kcc.knownCells.Version
      + (if deepEqual (some ["b", "a"]) (some ["a", "b"]) then 0 else 1) :=
  (version_between_recomputations newKnownCellsCache 63500000000000000000 63500000301000000000
    ⟨some ["a", "b"], none⟩ ⟨some ["b", "a"], none⟩
    [Op.get 63500000001000000000 ⟨none, none⟩,
     Op.get 63500000300000000000 ⟨none, some "timeout"⟩]
    (by decide) (by decide) (by decide)).2.1 (by decide) (by decide)

/-- C5: run any sequence of `get` and `flush` calls on a new cache, every
clock reading at least five minutes past the zero timestamp. Every `get` of
the run that returns a nil error, hit or recomputation, returns exactly what
`json.MarshalIndent` gives for the snapshot the cache holds after that
call. -/
theorem payload_in_sync (ops : List Op) (hclk : ∀ op ∈ ops, op.clockOk = true)
    (o : GetOutcome) (ho : o ∈ trace newKnownCellsCache ops) (hok : o.err = none) :
    o.bytes = (marshalIndent o.kcc.knownCells).1 :=
  trace_inSync ops newKnownCellsCache inSync_new hclk o ho hok

/-- C5 at a concrete run: a recomputation, a hit, a flush and a recomputation
that finds the same cells; the hit returns the serialization of Version 1. -/
theorem payload_in_sync_witness :
    (newKnownCellsCache.get 63500000000000000000 ⟨some ["a"], none⟩).kcc.get
        63500000001000000000 ⟨none, some "down"⟩
      ∈ trace newKnownCellsCache
          [Op.get 63500000000000000000 ⟨some ["a"], none⟩,
           Op.get 63500000001000000000 ⟨none, some "down"⟩, Op.flush,
           Op.get 63500000002000000000 ⟨some ["a"], none⟩] ∧
    ((newKnownCellsCache.get 63500000000000000000 ⟨some ["a"], none⟩).kcc.get
        63500000001000000000 ⟨none, some "down"⟩).bytes
      = (marshalIndent { Version := 1, Cells := some ["a"] }).1 :=
  ⟨by decide,
   payload_in_sync
    [Op.get 63500000000000000000 ⟨some ["a"], none⟩,
     Op.get 63500000001000000000 ⟨none, some "down"⟩, Op.flush,
     Op.get 63500000002000000000 ⟨some ["a"], none⟩]
    (by decide)
    ((newKnownCellsCache.get 63500000000000000000 ⟨some ["a"], none⟩).kcc.get
        63500000001000000000 ⟨none, some "down"⟩)
    (by decide) (by decide)⟩

/-- C6: after a `get` that misses and whose upstream call succeeds, the cached
cells are exactly the slice upstream returned, same items in the same order,
whether the version moved or not, and the timestamp is the clock reading of
that call. -/
theorem get_stores_upstream_cells (kcc : knownCellsCache) (now : Int) (ts : CellsReply)
    (hmiss : 5 * Minute ≤ now - kcc.timestamp) (hok : ts.err = none) :
    (kcc.get now ts).err = none ∧
      (kcc.get now ts).kcc.knownCells.Cells = ts.cells ∧
      (kcc.get now ts).kcc.timestamp = now := by
  rw [get_of_fetch kcc now ts (not_lt.2 hmiss) hok]
  exact ⟨rfl, refresh_cells _ _, rfl⟩

/-- C6 at a concrete cache: upstream returns `["b","a","b"]`, unsorted and
with a repeat, and that is what the cache holds afterwards. -/
theorem get_stores_upstream_cells_witness :
    (newKnownCellsCache.get 63500000000000000000 ⟨some ["b", "a", "b"], none⟩).err = none ∧
      (newKnownCellsCache.get 63500000000000000000
        ⟨some ["b", "a", "b"], none⟩).kcc.knownCells.Cells =
          (some ["b", "a", "b"] : Option (List GoString)) ∧
      (newKnownCellsCache.get 63500000000000000000
        ⟨some ["b", "a", "b"], none⟩).kcc.timestamp = 63500000000000000000 :=
  get_stores_upstream_cells newKnownCellsCache 63500000000000000000
    ⟨some ["b", "a", "b"], none⟩ (by decide) rfl

/-- C7: `flush` is defined on every cache; it sets the timestamp to the zero
timestamp and the cells to nil, and keeps the version and the stored
payload. -/
theorem flush_effect (kcc : knownCellsCache) :
    kcc.flush.timestamp = zeroTime ∧ kcc.flush.knownCells.Cells = none ∧
      kcc.flush.knownCells.Version = kcc.knownCells.Version ∧
      kcc.flush.result = kcc.result :=
  ⟨rfl, rfl, rfl, rfl⟩

/-- C8: on every cache, `flush` and then `get` at a clock reading at least
five minutes past the zero timestamp calls upstream exactly once, whatever the
timestamp was before the flush. -/
theorem flush_forces_upstream_call (kcc : knownCellsCache) (now : Int) (ts : CellsReply)
    (hnow : zeroTime + 5 * Minute ≤ now) :
    (kcc.flush.get now ts).upstreamCalls = 1 := by
  rw [get_upstreamCalls]
  have : ¬ now - kcc.flush.timestamp < 5 * Minute := by
    have ht : kcc.flush.timestamp = zeroTime := rfl
    rw [ht]
    unfold zeroTime at hnow ⊢
    omega
  rw [if_neg this]

/-- C8 at a concrete cache, refreshed one second before the flush. -/
theorem flush_forces_upstream_call_witness :
    ((newKnownCellsCache.get 63500000000000000000 ⟨some ["a"], none⟩).kcc.flush.get
      63500000001000000000 ⟨some ["a"], none⟩).upstreamCalls = 1 :=
  flush_forces_upstream_call _ 63500000001000000000 ⟨some ["a"], none⟩ (by decide)

/-- C9 as stated fails. A cache holds the largest `int` as its version, with
`["a","b"]`; it is flushed and the next `get` fetches `["a","b"]` again. The
call is a successful recomputation and `Version++` wraps around: the version
is the smallest `int`, not 1 greater than before the flush. -/
theorem flush_then_get_wraps_version :
    (({ timestamp := 63500000000000000000,
        knownCells := { Version := 9223372036854775807, Cells := some ["a", "b"] },
        result := some (encodeKnownCells
          { Version := 9223372036854775807, Cells := some ["a", "b"] })
        } : knownCellsCache).flush.get
      63500000001000000000 ⟨some ["a", "b"], none⟩).recomputed = true ∧
    (({ timestamp := 63500000000000000000,
        knownCells := { Version := 9223372036854775807, Cells := some ["a", "b"] },
        result := some (encodeKnownCells
          { Version := 9223372036854775807, Cells := some ["a", "b"] })
        } : knownCellsCache).flush.get
      63500000001000000000 ⟨some ["a", "b"], none⟩).kcc.knownCells =
      { Version := -9223372036854775808, Cells := some ["a", "b"] } := by
  decide

/-- C9, amended: on every cache whose version is an `int` below the largest
one, after `flush`, a `get` that fetches the sequence `cs` from upstream
succeeds and leaves the version exactly 1 above the version before the flush,
with `cs` as the cells, also when `cs` is what was cached before the flush.
This holds for every slice that is not nil, so for every non-empty sequence:
`flush` stores nil, which no such slice is deeply equal to. -/
theorem flush_then_get_bumps_version (kcc : knownCellsCache) (now : Int) (cs : List GoString)
    (hlo : minInt ≤ kcc.knownCells.Version) (hhi : kcc.knownCells.Version < maxInt)
    (hcall : (kcc.flush.get now ⟨some cs, none⟩).upstreamCalls = 1) :
    (kcc.flush.get now ⟨some cs, none⟩).err = none ∧
      (kcc.flush.get now ⟨some cs, none⟩).kcc.knownCells =
        { Version := kcc.knownCells.Version + 1, Cells := some cs } ∧
      (kcc.flush.get now ⟨some cs, none⟩).bytes =
        (marshalIndent { Version := kcc.knownCells.Version + 1, Cells := some cs }).1 := by
  have hmiss := miss_of_upstreamCalls _ _ _ hcall
  rw [get_of_fetch kcc.flush now ⟨some cs, none⟩ hmiss rfl]
  have hr : refresh kcc.flush.knownCells (some cs) =
      { Version := kcc.knownCells.Version + 1, Cells := some cs } := by
    simp [refresh, knownCellsCache.flush, deepEqual, wrapInt_succ _ hlo hhi]
  rw [hr]
  exact ⟨rfl, rfl, rfl⟩

/-- C9, amended, at the example of the claim: Version 1 with `["a","b"]`,
flush, upstream `["a","b"]` again gives Version 2 with `["a","b"]`. -/
theorem flush_then_get_bumps_version_witness :
    (({ timestamp := 63500000000000000000,
        knownCells := { Version := 1, Cells := some ["a", "b"] },
        result := some (encodeKnownCells { Version := 1, Cells := some ["a", "b"] })
        } : knownCellsCache).flush.get
      63500000001000000000 ⟨some ["a", "b"], none⟩).kcc.knownCells =
    { Version := 2, Cells := some ["a", "b"] } :=
  (flush_then_get_bumps_version
    { timestamp := 63500000000000000000,
      knownCells := { Version := 1, Cells := some ["a", "b"] },
      result := some (encodeKnownCells { Version := 1, Cells := some ["a", "b"] }) }
    63500000001000000000 ["a", "b"] (by decide) (by decide) (by decide)).2.1

/-- C10, at its failing input. A cache holding Version 1 with `["a"]` is
flushed, and the next `get`, long after the zero timestamp, fetches a nil slice
from upstream: the call is a successful recomputation, and the version it
leaves and serves is 1, the version before the flush, not a greater one. -/
theorem flush_then_nil_keeps_version :
    (({ timestamp := 63500000000000000000,
        knownCells := { Version := 1, Cells := some ["a"] },
        result := some (encodeKnownCells { Version := 1, Cells := some ["a"] })
        } : knownCellsCache).flush.get 63500000001000000000 ⟨none, none⟩)
    = { bytes := some "\x7b\n  \"Version\": 1,\n  \"Cells\": null\n\x7d", err := none,
        kcc := { timestamp := 63500000001000000000,
                 knownCells := { Version := 1, Cells := none },
                 result := some "\x7b\n  \"Version\": 1,\n  \"Cells\": null\n\x7d" },
        upstreamCalls := 1 } := by
  decide

/-- C11: take a `get` that returns a nil error, followed only by `get`s whose
clock readings are less than five minutes after the refresh timestamp it
left, no `flush` among them. Every call of the sequence returns a nil error
and the bytes of the first call, every later call leaves the cache the first
call left and asks upstream nothing, whatever reply upstream had ready, and
the whole sequence asks upstream at most once. -/
theorem hits_return_first_payload (kcc : knownCellsCache) (now : Int) (ts : CellsReply)
    (later : List Op) (hfirst : (kcc.get now ts).err = none)
    (hlater : ∀ op ∈ later, op.fresh (kcc.get now ts).kcc.timestamp = true) :
    (∀ o ∈ trace kcc (Op.get now ts :: later),
        o.bytes = (kcc.get now ts).bytes ∧ o.err = none ∧ o.kcc = (kcc.get now ts).kcc) ∧
      (∀ o ∈ trace (kcc.get now ts).kcc later, o.upstreamCalls = 0) ∧
      (trace kcc (Op.get now ts :: later)).length = later.length + 1 ∧
      run kcc (Op.get now ts :: later) = (kcc.get now ts).kcc ∧
      upstreamTotal (trace kcc (Op.get now ts :: later)) ≤ 1 := by
  obtain ⟨i1, i2, i3, i4⟩ := trace_of_fresh later (kcc.get now ts).kcc hlater
  have hb := get_bytes_eq_result kcc now ts hfirst
  refine ⟨?_, ?_, ?_, ?_, ?_⟩
  · intro o ho
    simp only [trace, List.mem_cons] at ho
    rcases ho with ho | ho
    · subst ho; exact ⟨rfl, hfirst, rfl⟩
    · rw [i1 o ho]; exact ⟨hb.symm, rfl, rfl⟩
  · intro o ho
    rw [i1 o ho]
  · simp only [trace, List.length_cons, i4]
  · simp only [run, step]; exact i2
  · simp only [trace, upstreamTotal, i3, get_upstreamCalls]
    split_ifs <;> omega

/-- C11 at the scenarios A and B of the specification: a first `get` fetches
`["a","b"]`, then two more `get`s come within the window while upstream is
unreachable; upstream is asked once in all. -/
theorem hits_return_first_payload_witness :
    upstreamTotal (trace newKnownCellsCache
      [Op.get 63500000000000000000 ⟨some ["a", "b"], none⟩,
       Op.get 63500000000000000001 ⟨none, some "unreachable"⟩,
       Op.get 63500000299999999999 ⟨none, some "unreachable"⟩]) ≤ 1 :=
  (hits_return_first_payload newKnownCellsCache 63500000000000000000
    ⟨some ["a", "b"], none⟩
    [Op.get 63500000000000000001 ⟨none, some "unreachable"⟩,
     Op.get 63500000299999999999 ⟨none, some "unreachable"⟩]
    (by decide) (by decide)).2.2.2.2

/-- C12: after a `get` that missed and got the error `e` from upstream, the
next `get`, at a clock reading not earlier than that of the failed call, asks
upstream exactly once again. It returns the error of that second upstream call
with nil bytes, or, when that call succeeds, the serialization of the snapshot
it has just recomputed: it is no hit. -/
theorem get_retries_after_failure (kcc : knownCellsCache) (now1 now2 : Int)
    (ts1 ts2 : CellsReply) (e : GoError)
    (hmiss : 5 * Minute ≤ now1 - kcc.timestamp) (herr : ts1.err = some e)
    (hclock : now1 ≤ now2) :
    (kcc.get now1 ts1).err = some e ∧
      ((kcc.get now1 ts1).kcc.get now2 ts2).upstreamCalls = 1 ∧
      (∀ e2, ts2.err = some e2 →
        ((kcc.get now1 ts1).kcc.get now2 ts2).bytes = none ∧
        ((kcc.get now1 ts1).kcc.get now2 ts2).err = some e2) ∧
      (ts2.err = none →
        ((kcc.get now1 ts1).kcc.get now2 ts2).err = none ∧
        ((kcc.get now1 ts1).kcc.get now2 ts2).bytes =
          (marshalIndent (refresh kcc.knownCells ts2.cells)).1 ∧
        ((kcc.get now1 ts1).kcc.get now2 ts2).kcc.timestamp = now2) := by
  rw [get_of_fail kcc now1 ts1 e (not_lt.2 hmiss) herr]
  have h2 : ¬ now2 - kcc.timestamp < 5 * Minute := by omega
  refine ⟨rfl, ?_, ?_, ?_⟩
  · simp only [get_upstreamCalls, if_neg h2]
  · intro e2 he2
    simp only [get_of_fail kcc now2 ts2 e2 h2 he2, and_self]
  · intro hok
    simp only [get_of_fetch kcc now2 ts2 h2 hok, marshalIndent, and_self]

/-- C12 at a concrete cache: Version 1 with `["a"]` is six minutes old,
upstream fails, and the `get` of the same instant asks upstream again. -/
theorem get_retries_after_failure_witness :
    (((({ timestamp := 63500000000000000000,
          knownCells := { Version := 1, Cells := some ["a"] },
          result := some (encodeKnownCells { Version := 1, Cells := some ["a"] })
          } : knownCellsCache).get 63500000360000000000 ⟨none, some "timeout"⟩).kcc.get
        63500000360000000000 ⟨some ["a"], none⟩).upstreamCalls = 1) :=
  (get_retries_after_failure
    { timestamp := 63500000000000000000,
      knownCells := { Version := 1, Cells := some ["a"] },
      result := some (encodeKnownCells { Version := 1, Cells := some ["a"] }) }
    63500000360000000000 63500000360000000000 ⟨none, some "timeout"⟩ ⟨some ["a"], none⟩
    "timeout" (by decide) rfl (by decide)).2.1

/-- C13 as stated fails. On a cache whose version is the largest `int` a `get`
recomputes and finds new cells: `Version++` wraps around, and the version
afterwards is the smallest `int`, which is neither the version before nor 1
greater, is below the version before, and is negative. -/
theorem version_wraps_at_maxInt :
    (({ timestamp := zeroTime, knownCells := { Version := 9223372036854775807, Cells := none },
        result := none } : knownCellsCache).get
      63500000000000000000 ⟨some ["a"], none⟩).recomputed = true ∧
    (step { timestamp := zeroTime, knownCells := { Version := 9223372036854775807, Cells := none },
            result := none }
      (Op.get 63500000000000000000 ⟨some ["a"], none⟩)).knownCells.Version
      = -9223372036854775808 ∧
    (step { timestamp := zeroTime, knownCells := { Version := 9223372036854775807, Cells := none },
            result := none }
      (Op.get 63500000000000000000 ⟨some ["a"], none⟩)).knownCells.Version
      < 9223372036854775807 ∧
    (step { timestamp := zeroTime, knownCells := { Version := 9223372036854775807, Cells := none },
            result := none }
      (Op.get 63500000000000000000 ⟨some ["a"], none⟩)).knownCells.Version < 0 := by
  decide

/-- C13, amended: a new cache has version 0. One call, whatever it is, leaves
the version as it was or increments it once as a Go `int`: exactly 1 more when
the version before is an `int` below the largest one, the smallest `int` when
it is the largest one. A `get` that is no successful recomputation (a hit, or a
failed upstream call) and a `flush` leave it as it was. So along a sequence of
calls that is too short for the version to reach the largest `int` the version
never decreases, and from a new cache it is never negative and at most the
number of calls made. -/
theorem version_moves_by_zero_or_one :
    newKnownCellsCache.knownCells.Version = 0 ∧
    (∀ (kcc : knownCellsCache) (op : Op),
      (step kcc op).knownCells.Version = kcc.knownCells.Version ∨
      (step kcc op).knownCells.Version = wrapInt (kcc.knownCells.Version + 1)) ∧
    (∀ (kcc : knownCellsCache) (op : Op),
      minInt ≤ kcc.knownCells.Version → kcc.knownCells.Version < maxInt →
      (step kcc op).knownCells.Version = kcc.knownCells.Version ∨
      (step kcc op).knownCells.Version = kcc.knownCells.Version + 1) ∧
    wrapInt (maxInt + 1) = minInt ∧
    (∀ (kcc : knownCellsCache) (now : Int) (ts : CellsReply),
      (kcc.get now ts).recomputed = false →
        (kcc.get now ts).kcc.knownCells.Version = kcc.knownCells.Version) ∧
    (∀ kcc : knownCellsCache, kcc.flush.knownCells.Version = kcc.knownCells.Version) ∧
    (∀ (kcc : knownCellsCache) (ops1 ops2 : List Op),
      minInt ≤ kcc.knownCells.Version →
      kcc.knownCells.Version + ((ops1 ++ ops2).length : Int) ≤ maxInt →
      (run kcc ops1).knownCells.Version ≤ (run kcc (ops1 ++ ops2)).knownCells.Version) ∧
    (∀ ops : List Op, (ops.length : Int) ≤ maxInt →
      0 ≤ (run newKnownCellsCache ops).knownCells.Version ∧
      (run newKnownCellsCache ops).knownCells.Version ≤ (ops.length : Int)) := by
  refine ⟨rfl, version_step, ?_, by decide, ?_, fun _ => rfl, ?_, ?_⟩
  · intro kcc op hlo hhi
    have h := version_step kcc op
    rw [wrapInt_succ _ hlo hhi] at h
    exact h
  · intro kcc now ts h
    rw [get_kcc_of_not_recomputed kcc now ts h]
  · intro kcc ops1 ops2 hlo hhi
    rw [run_append]
    simp only [List.length_append, Nat.cast_add] at hhi
    have b1 := version_run_bounds ops1 kcc hlo (by omega)
    have b2 := version_run_bounds ops2 (run kcc ops1) (by omega) (by omega)
    exact b2.1
  · intro ops hlen
    have hz : newKnownCellsCache.knownCells.Version = 0 := rfl
    have b := version_run_bounds ops newKnownCellsCache (by rw [hz]; decide) (by rw [hz]; omega)
    rw [hz] at b
    omega

/-- C14: on a new cache, at a clock reading at least five minutes past the
zero timestamp, the first `get` asks upstream once and, when upstream returns
the sequence `cs`, returns with a nil error what `json.MarshalIndent` gives for
Version 1 with Cells `cs`, and stores that snapshot. This holds for every slice
that is not nil, so for every non-empty sequence. -/
theorem first_get_is_version_one (now : Int) (cs : List GoString)
    (hnow : zeroTime + 5 * Minute ≤ now) :
    newKnownCellsCache.get now ⟨some cs, none⟩ =
      { bytes := (marshalIndent { Version := 1, Cells := some cs }).1, err := none,
        kcc := { timestamp := now, knownCells := { Version := 1, Cells := some cs },
                 result := (marshalIndent { Version := 1, Cells := some cs }).1 },
        upstreamCalls := 1 } := by
  have hmiss : ¬ now - newKnownCellsCache.timestamp < 5 * Minute := by
    have ht : newKnownCellsCache.timestamp = zeroTime := rfl
    rw [ht]
    unfold zeroTime at hnow ⊢
    omega
  rw [get_of_fetch newKnownCellsCache now ⟨some cs, none⟩ hmiss rfl]
  have hr : refresh newKnownCellsCache.knownCells (some cs) =
      { Version := 1, Cells := some cs } := by
    have hw : wrapInt 1 = 1 := by decide
    simp [refresh, newKnownCellsCache, deepEqual, hw]
  rw [hr]
  rfl

/-- C14 at scenario A of the specification: upstream `["a","b"]` on a new
cache gives Version 1 with `["a","b"]`. -/
theorem first_get_is_version_one_witness :
    (newKnownCellsCache.get 63500000000000000000 ⟨some ["a", "b"], none⟩).bytes =
      some "\x7b\n  \"Version\": 1,\n  \"Cells\": [\n    \"a\",\n    \"b\"\n  ]\n\x7d" :=
  (congrArg GetOutcome.bytes
    (first_get_is_version_one 63500000000000000000 ["a", "b"] (by decide))).trans (by decide)

/-- C15: `flush` twice is `flush` once, and on a cache that is already flushed
(zero timestamp, nil cells) `flush` changes nothing. -/
theorem flush_idempotent (kcc : knownCellsCache) :
    kcc.flush.flush = kcc.flush ∧
      (kcc.timestamp = zeroTime → kcc.knownCells.Cells = none → kcc.flush = kcc) := by
  refine ⟨rfl, ?_⟩
  intro ht hc
  obtain ⟨t, ⟨v, c⟩, r⟩ := kcc
  simp only at ht hc
  subst ht hc
  rfl

/-- C16 as stated fails, in two ways. On a new cache upstream returns a nil
slice, no cells: the `get` is a successful recomputation, and in the bytes it
returns the field `Cells` is `null`, no array of strings. And on a new cache
upstream returns one cell name that is the single byte 0xFF, which is no valid
UTF-8: `encoding/json` writes the escape of U+FFFD for it, so the `Cells` read
back are the three bytes of U+FFFD, not the cached name. -/
theorem payload_cells_null_or_replaced :
    ((newKnownCellsCache.get 63500000000000000000 ⟨none, none⟩).recomputed = true ∧
     (newKnownCellsCache.get 63500000000000000000 ⟨none, none⟩).bytes =
       some "\x7b\n  \"Version\": 0,\n  \"Cells\": null\n\x7d" ∧
     (newKnownCellsCache.get 63500000000000000000 ⟨none, none⟩).bytes.bind decodeKnownCells =
       some { Version := 0, Cells := none } ∧
     cellsIsArray (newKnownCellsCache.get 63500000000000000000 ⟨none, none⟩).bytes = false) ∧
    ((newKnownCellsCache.get 63500000000000000000 ⟨some [[255]], none⟩).recomputed = true ∧
     (newKnownCellsCache.get 63500000000000000000 ⟨some [[255]], none⟩).bytes =
       some "\x7b\n  \"Version\": 1,\n  \"Cells\": [\n    \"\\ufffd\"\n  ]\n\x7d" ∧
     (newKnownCellsCache.get 63500000000000000000 ⟨some [[255]], none⟩).kcc.knownCells =
       { Version := 1, Cells := some [[255]] } ∧
     (newKnownCellsCache.get 63500000000000000000
        ⟨some [[255]], none⟩).bytes.bind decodeKnownCells =
       some { Version := 1, Cells := some [[239, 191, 189]] }) := by
  decide

/-- C16, amended: the bytes of every successful recomputation, from any cache
and for any slice upstream returns, an empty or a nil one included, read back
as an object of exactly the two fields `Version`, an integer, and `Cells`, in
that order, two spaces a level and nothing before the opening brace. The
`Version` read back is that of the cached snapshot. `Cells` is an array of
strings when the cached slice is not nil and `null` when it is nil, and the
cells read back are the cached ones with every byte that starts no valid UTF-8
encoding replaced by U+FFFD: the cached ones themselves when every cell name is
valid UTF-8. The same holds for every `get` that returns a nil error, hits
included, in a run from a new cache with clock readings at least five minutes
past the zero timestamp. -/
theorem payload_reads_back :
    (∀ (kcc : knownCellsCache) (now : Int) (ts : CellsReply),
      (kcc.get now ts).recomputed = true →
        (kcc.get now ts).bytes.bind decodeKnownCells =
          some { Version := (kcc.get now ts).kcc.knownCells.Version,
                 Cells := ts.cells.map (List.map toValidUTF8) } ∧
        cellsIsArray (kcc.get now ts).bytes = ts.cells.isSome ∧
        (cellsValid ts.cells = true →
          (kcc.get now ts).bytes.bind decodeKnownCells = some (kcc.get now ts).kcc.knownCells)) ∧
    (∀ (ops : List Op), (∀ op ∈ ops, op.clockOk = true) →
      ∀ o ∈ trace newKnownCellsCache ops, o.err = none →
        o.bytes.bind decodeKnownCells =
          some { Version := o.kcc.knownCells.Version,
                 Cells := o.kcc.knownCells.Cells.map (List.map toValidUTF8) } ∧
        cellsIsArray o.bytes = o.kcc.knownCells.Cells.isSome ∧
        (cellsValid o.kcc.knownCells.Cells = true →
          o.bytes.bind decodeKnownCells = some o.kcc.knownCells)) := by
  constructor
  · intro kcc now ts h
    have hm := (recomputed_iff kcc now ts).1 h
    rw [get_of_fetch kcc now ts hm.1 hm.2]
    refine ⟨?_, ?_, ?_⟩
    · simp only [Option.some_bind, decode_encode, refresh_cells]
    · cases hc : ts.cells <;>
        simp [cellsIsArray, Option.some_bind, decode_encode, refresh_cells, hc]
    · intro hv
      have hv2 : cellsValid (refresh kcc.knownCells ts.cells).Cells = true := by
        rw [refresh_cells]; exact hv
      simp only [Option.some_bind, decode_encode_of_valid _ hv2]
  · intro ops hclk o ho hok
    have hb := trace_inSync ops newKnownCellsCache inSync_new hclk o ho hok
    refine ⟨?_, ?_, ?_⟩
    · simp only [hb, Option.some_bind, decode_encode]
    · cases hc : o.kcc.knownCells.Cells <;>
        simp [cellsIsArray, hb, Option.some_bind, decode_encode, hc]
    · intro hv
      simp only [hb, Option.some_bind, decode_encode_of_valid _ hv]

/-- C18 as stated fails. On a new cache a first `get` fetches a nil slice; five
minutes later, no `flush` in between, a second `get` recomputes and upstream
returns an empty slice that is not nil: the same ordered sequence of items,
none. The bytes of the second call differ from those of the first, and so does
the Version. -/
theorem identical_items_payload_changed :
    (newKnownCellsCache.get 63500000000000000000 ⟨none, none⟩).recomputed = true ∧
    ((newKnownCellsCache.get 63500000000000000000 ⟨none, none⟩).kcc.get
        63500000300000000000 ⟨some [], none⟩).recomputed = true ∧
    items (none : Option (List GoString)) = items (some []) ∧
    (newKnownCellsCache.get 63500000000000000000 ⟨none, none⟩).bytes =
      some "\x7b\n  \"Version\": 0,\n  \"Cells\": null\n\x7d" ∧
    ((newKnownCellsCache.get 63500000000000000000 ⟨none, none⟩).kcc.get
        63500000300000000000 ⟨some [], none⟩).bytes =
      some "\x7b\n  \"Version\": 1,\n  \"Cells\": []\n\x7d" := by
  decide

/-- C18, amended: a `get` returns a nil error and the serialization of the
snapshot the cache then holds; with no `flush` in between, only hits and failed
`get`s, a later `get` recomputes and upstream returns a slice deeply equal to
the cached cells (same items in the same order, and both nil or both not nil).
Then the second call returns the bytes of the first, the snapshot (Version and
Cells) is the same, and the cache differs from the one the first call left in
its timestamp only, which is the clock reading of the second call. -/
theorem recompute_same_cells_same_payload (kcc : knownCellsCache) (now1 now2 : Int)
    (ts1 ts2 : CellsReply) (mid : List Op)
    (hfirst : (kcc.get now1 ts1).err = none)
    (hsync : (kcc.get now1 ts1).bytes = (marshalIndent (kcc.get now1 ts1).kcc.knownCells).1)
    (hmid : quiet (kcc.get now1 ts1).kcc mid = true)
    (h2 : ((run (kcc.get now1 ts1).kcc mid).get now2 ts2).recomputed = true)
    (hsame : deepEqual ts2.cells (kcc.get now1 ts1).kcc.knownCells.Cells = true) :
    ((run (kcc.get now1 ts1).kcc mid).get now2 ts2).bytes = (kcc.get now1 ts1).bytes ∧
      ((run (kcc.get now1 ts1).kcc mid).get now2 ts2).kcc.knownCells =
        (kcc.get now1 ts1).kcc.knownCells ∧
      ((run (kcc.get now1 ts1).kcc mid).get now2 ts2).kcc =
        { timestamp := now2, knownCells := (kcc.get now1 ts1).kcc.knownCells,
          result := (kcc.get now1 ts1).kcc.result } := by
  rw [run_of_quiet mid _ hmid] at h2 ⊢
  have hres := get_bytes_eq_result kcc now1 ts1 hfirst
  rw [hsync] at hres
  have hm := (recomputed_iff _ now2 ts2).1 h2
  have hr : refresh (kcc.get now1 ts1).kcc.knownCells ts2.cells =
      (kcc.get now1 ts1).kcc.knownCells := by
    simp [refresh, hsame]
  rw [get_of_fetch _ now2 ts2 hm.1 hm.2, hr, hsync, ← hres]
  exact ⟨rfl, rfl, rfl⟩

/-- C18, amended, at scenario D of the specification: Version 2 with
`["a","b"]` was recomputed, the window elapses, upstream returns `["a","b"]`
again, and the second call returns the same bytes. -/
theorem recompute_same_cells_same_payload_witness :
    (((({ timestamp := 63500000000000000000,
          knownCells := { Version := 1, Cells := none },
          result := some (encodeKnownCells { Version := 1, Cells := some ["a", "b"] })
          } : knownCellsCache).get 63500000300000000000 ⟨some ["a", "b"], none⟩).kcc.get
        63500000600000000000 ⟨some ["a", "b"], none⟩).bytes =
      some "\x7b\n  \"Version\": 2,\n  \"Cells\": [\n    \"a\",\n    \"b\"\n  ]\n\x7d") :=
  (recompute_same_cells_same_payload
    { timestamp := 63500000000000000000,
      knownCells := { Version := 1, Cells := none },
      result := some (encodeKnownCells { Version := 1, Cells := some ["a", "b"] }) }
    63500000300000000000 63500000600000000000 ⟨some ["a", "b"], none⟩ ⟨some ["a", "b"], none⟩ []
    (by decide) (by decide) (by decide) (by decide) (by decide)).1.trans (by decide)

end TopoData
